import Mathlib

/-!
Verification of the SCD Type 2 dimension loader (`src/load/dim_customer_loader.py`)
and of the temporal cost-attribution engine of the `asom-data-template` repository.

The loader is embedded shallowly: the `dim_customer` table is a list of
`DimRow` records, the loader threads the table and the next surrogate key
through the snapshot rows exactly as the Python `for row in df.iter_rows`
loop does, and a snapshot row with a missing natural key is an error (in the
Python, interpolating the missing key into the INSERT statement makes the
persistence layer raise, aborting the run).  PII masking is delegated to a
`PIIMasker` record of pure functions, exactly as the loader delegates to its
`masker` argument.
-/

namespace Asom

/-- A row of the customer snapshot Parquet file.  `customer_id` is optional
because the column is nullable in the source file; a `none` is a malformed
row (missing natural key). -/
structure SnapshotRow where
  customer_id : Option Int
  email : String
  phone : String
  first_name : String
  last_name : String
  segment : String
deriving DecidableEq

/-- A persisted row of `dim_customer`.  Dates are ISO `YYYY-MM-DD` strings,
as stored by the loader; lexicographic string order coincides with
chronological order on such strings. -/
structure DimRow where
  customer_key : Int
  customer_id : Int
  email_token : String
  phone_redacted : String
  first_name : String
  last_name : String
  segment : String
  effective_from : String
  effective_to : Option String
  is_current : Bool
  loaded_at : String
deriving DecidableEq

/-- The identifier-masking service: pure functions from raw value to token,
mirroring `PIIMasker.mask_email` / `PIIMasker.redact_phone`. -/
structure PIIMasker where
  mask_email : String → String
  redact_phone : String → String

/-- `snapshot_date = "2025-01-30"  # Deterministic default for testing` -/
def DEFAULT_DATE : String := "2025-01-30"

/-- Python-dict association lookup: the value of the LAST entry inserted for
the key, as in `{row["customer_id"]: row["segment"] for row in existing}`. -/
def dictLookup : List (Int × String) → Int → Option String
  | [], _ => none
  | p :: rest, k =>
    match dictLookup rest k with
    | some v => some v
    | none => if p.1 = k then some p.2 else none

/-- `SELECT customer_id, segment FROM dim_customer WHERE is_current = TRUE`,
materialised into the `current_map` dict. -/
def currentMap (table : List DimRow) : List (Int × String) :=
  (table.filter (fun r => r.is_current)).map (fun r => (r.customer_id, r.segment))

/-- `SELECT COALESCE(MAX(customer_key), 0) FROM dim_customer`. -/
def maxKey (table : List DimRow) : Int :=
  ((table.map (fun r => r.customer_key)).max?).getD 0

/-- The row written by `_insert_customer`: fresh key, snapshot attributes,
`effective_from = d`, `effective_to = NULL`, `is_current = TRUE`,
`_loaded_at = d`. -/
def mkVersion (key : Int) (cid : Int) (email_token phone_redacted fn ln seg d : String) :
    DimRow :=
  ⟨key, cid, email_token, phone_redacted, fn, ln, seg, d, none, true, d⟩

/-- Effect of `UPDATE dim_customer SET effective_to = d, is_current = FALSE
WHERE customer_id = cid AND is_current = TRUE` on one stored row. -/
def expireRow (cid : Int) (d : String) (r : DimRow) : DimRow :=
  if r.customer_id = cid ∧ r.is_current then
    { r with effective_to := some d, is_current := false }
  else r

/-- The version row built by `_insert_customer` from a snapshot row after
masking: fresh key `k`, masked contact fields, snapshot attributes. -/
def snapVersion (masker : PIIMasker) (k cid : Int) (row : SnapshotRow) (d : String) :
    DimRow :=
  mkVersion k cid (masker.mask_email row.email) (masker.redact_phone row.phone)
    row.first_name row.last_name row.segment d

/-- One iteration of the loader's `for row in df.iter_rows(named=True)` loop.
The state is `(next_key, table)`.  `cmap` is the `current_map` dict computed
once, before the loop.  A missing natural key aborts the run: the Python
interpolates `None` into the INSERT statement and the database raises. -/
def processRow (masker : PIIMasker) (cmap : List (Int × String)) (d : String)
    (st : Int × List DimRow) (row : SnapshotRow) : Except String (Int × List DimRow) :=
  match row.customer_id with
  | none => .error "malformed snapshot row: missing customer_id"
  | some cid =>
    match dictLookup cmap cid with
    | none =>
      .ok (st.1 + 1, st.2 ++ [snapVersion masker st.1 cid row d])
    | some seg =>
      if seg ≠ row.segment then
        .ok (st.1 + 1, (st.2.map (expireRow cid d)) ++ [snapVersion masker st.1 cid row d])
      else
        .ok st

/-- The loader's row loop: process the snapshot rows in order, stopping at
the first failing statement (the connector raises, the exception
propagates). -/
def loadLoop (masker : PIIMasker) (cmap : List (Int × String)) (d : String)
    (st : Int × List DimRow) : List SnapshotRow → Except String (Int × List DimRow)
  | [] => .ok st
  | row :: rest =>
    match processRow masker cmap d st row with
    | .error e => .error e
    | .ok st' => loadLoop masker cmap d st' rest

/-- `load_dim_customer`: read current state and next surrogate key from the
table, then run the row loop.  Returns the final table contents (the Python
function returns its row count, see `loadDimCustomerCount`). -/
def loadDimCustomer (masker : PIIMasker) (snapshot : List SnapshotRow)
    (snapshot_date : Option String) (table : List DimRow) :
    Except String (List DimRow) :=
  (loadLoop masker (currentMap table) (snapshot_date.getD DEFAULT_DATE)
    (maxKey table + 1, table) snapshot).map (fun st => st.2)

/-- The loader's actual return value: `SELECT COUNT(*) FROM dim_customer`. -/
def loadDimCustomerCount (masker : PIIMasker) (snapshot : List SnapshotRow)
    (snapshot_date : Option String) (table : List DimRow) : Except String Nat :=
  (loadDimCustomer masker snapshot snapshot_date table).map (fun t => t.length)

/-- A sequence of `load_dim_customer` invocations, each a snapshot together
with its (optional) `snapshot_date`. -/
def loadSeq (masker : PIIMasker) :
    List (List SnapshotRow × Option String) → List DimRow → Except String (List DimRow)
  | [], table => .ok table
  | b :: rest, table =>
    match loadDimCustomer masker b.1 b.2 table with
    | .error e => .error e
    | .ok t' => loadSeq masker rest t'

/-! ### Vocabulary for the stated properties -/

/-- Lexicographic comparison of ISO `YYYY-MM-DD` date strings (character
lists); on such strings it coincides with chronological order. -/
def charListLe : List Char → List Char → Bool
  | [], _ => true
  | _ :: _, [] => false
  | c :: cs, d :: ds =>
    if c.toNat < d.toNat then true
    else if d.toNat < c.toNat then false
    else charListLe cs ds

/-- Chronological (= lexicographic) order on ISO date strings. -/
def dateLe (a b : String) : Bool := charListLe a.data b.data

/-- The rows of the table that belong to natural key `c` and are current:
the rows hit by the loader's expiry UPDATE for that key. -/
def curOf (table : List DimRow) (c : Int) : List DimRow :=
  table.filter (fun r => decide (r.customer_id = c ∧ r.is_current = true))

/-- All version rows of natural key `c`, in table order (the loader only
appends, so table order is insertion order). -/
def versionsOf (table : List DimRow) (c : Int) : List DimRow :=
  table.filter (fun r => decide (r.customer_id = c))

/-- The version history of one natural key, in insertion order, is a closed
chain: every row but the last has `effective_to` equal to the next row's
`effective_from`, `effective_from`s are non-decreasing, and the last row is
open (`effective_to = null`).  This is the non-overlap / contiguity / single
open interval invariant of the spec. -/
def chainOk : List DimRow → Bool
  | [] => true
  | [r] => r.effective_to == none
  | r :: r' :: rs =>
    r.effective_to == some r'.effective_from &&
    dateLe r.effective_from r'.effective_from &&
    chainOk (r' :: rs)

/-- Agreement of the two redundant encodings of currency, rowwise:
`is_current = true` iff `effective_to` is null. -/
def currentFlagOk (table : List DimRow) : Prop :=
  ∀ r ∈ table, r.is_current = true ↔ r.effective_to = none

/-- All columns of a version row except the `effective_to` / `is_current`
pair written on expiry. -/
def sameCore (a b : DimRow) : Prop :=
  a.customer_key = b.customer_key ∧ a.customer_id = b.customer_id ∧
  a.email_token = b.email_token ∧ a.phone_redacted = b.phone_redacted ∧
  a.first_name = b.first_name ∧ a.last_name = b.last_name ∧
  a.segment = b.segment ∧ a.effective_from = b.effective_from ∧
  a.loaded_at = b.loaded_at

/-! ### Basic lemmas about the loader -/

lemma processRow_ok {m : PIIMasker} {cmap : List (Int × String)} {dd : String}
    {k : Int} {tbl : List DimRow} {row : SnapshotRow} {k' : Int} {tbl' : List DimRow}
    (h : processRow m cmap dd (k, tbl) row = .ok (k', tbl')) :
    ∃ cid, row.customer_id = some cid ∧
      ((dictLookup cmap cid = none ∧ k' = k + 1 ∧
          tbl' = tbl ++ [snapVersion m k cid row dd]) ∨
       (∃ seg, dictLookup cmap cid = some seg ∧ seg ≠ row.segment ∧ k' = k + 1 ∧
          tbl' = tbl.map (expireRow cid dd) ++ [snapVersion m k cid row dd]) ∨
       (dictLookup cmap cid = some row.segment ∧ k' = k ∧ tbl' = tbl)) := by
  unfold processRow at h
  split at h
  · exact absurd h (by simp)
  rename_i cid hid
  refine ⟨cid, hid, ?_⟩
  split at h
  · rename_i hlk
    simp only [Except.ok.injEq, Prod.mk.injEq] at h
    exact Or.inl ⟨hlk, h.1.symm, h.2.symm⟩
  rename_i seg hlk
  split at h
  · rename_i hs
    simp only [Except.ok.injEq, Prod.mk.injEq] at h
    exact Or.inr (Or.inl ⟨seg, hlk, hs, h.1.symm, h.2.symm⟩)
  · rename_i hs
    simp only [Except.ok.injEq, Prod.mk.injEq] at h
    push_neg at hs
    exact Or.inr (Or.inr ⟨hs ▸ hlk, h.1.symm, h.2.symm⟩)

lemma processRow_error {m : PIIMasker} {cmap : List (Int × String)} {dd : String}
    {st : Int × List DimRow} {row : SnapshotRow} {e : String}
    (h : processRow m cmap dd st row = .error e) : row.customer_id = none := by
  unfold processRow at h
  split at h
  · assumption
  split at h
  · exact absurd h (by simp)
  split at h
  · exact absurd h (by simp)
  · exact absurd h (by simp)

lemma expireRow_cases (cid : Int) (dd : String) (r : DimRow) :
    expireRow cid dd r = r ∨
    (r.customer_id = cid ∧ r.is_current = true ∧
      expireRow cid dd r = { r with effective_to := some dd, is_current := false }) := by
  unfold expireRow
  by_cases hc : r.customer_id = cid ∧ r.is_current
  · exact Or.inr ⟨hc.1, hc.2, if_pos hc⟩
  · exact Or.inl (if_neg hc)

lemma expireRow_customer_id (cid : Int) (dd : String) (r : DimRow) :
    (expireRow cid dd r).customer_id = r.customer_id := by
  rcases expireRow_cases cid dd r with h | ⟨_, _, h⟩ <;> rw [h]

lemma expireRow_sameCore (cid : Int) (dd : String) (r : DimRow) :
    sameCore r (expireRow cid dd r) := by
  rcases expireRow_cases cid dd r with h | ⟨_, _, h⟩ <;> rw [h] <;>
    exact ⟨rfl, rfl, rfl, rfl, rfl, rfl, rfl, rfl, rfl⟩

lemma expireRow_of_ne {cid : Int} {dd : String} {r : DimRow}
    (h : r.customer_id ≠ cid) : expireRow cid dd r = r := by
  unfold expireRow
  exact if_neg (fun hc => h hc.1)

lemma loadDimCustomer_ok_iff {m : PIIMasker} {snap : List SnapshotRow}
    {d : Option String} {table t' : List DimRow} :
    loadDimCustomer m snap d table = .ok t' ↔
    ∃ k', loadLoop m (currentMap table) (d.getD DEFAULT_DATE)
      (maxKey table + 1, table) snap = .ok (k', t') := by
  unfold loadDimCustomer
  cases h : loadLoop m (currentMap table) (d.getD DEFAULT_DATE)
      (maxKey table + 1, table) snap with
  | error e => simp [Except.map]
  | ok st =>
    obtain ⟨a, b⟩ := st
    simp only [Except.map, Except.ok.injEq]
    constructor
    · rintro rfl; exact ⟨a, rfl⟩
    · rintro ⟨k', hk⟩
      rw [Prod.mk.injEq] at hk
      exact hk.2

lemma processRow_none {m : PIIMasker} {cmap : List (Int × String)} {dd : String}
    {st : Int × List DimRow} {row : SnapshotRow} (hid : row.customer_id = none) :
    processRow m cmap dd st row = .error "malformed snapshot row: missing customer_id" := by
  unfold processRow
  rw [hid]

lemma sameCore_refl (a : DimRow) : sameCore a a :=
  ⟨rfl, rfl, rfl, rfl, rfl, rfl, rfl, rfl, rfl⟩

lemma sameCore_trans {a b c : DimRow} (h₁ : sameCore a b) (h₂ : sameCore b c) :
    sameCore a c := by
  obtain ⟨u1, u2, u3, u4, u5, u6, u7, u8, u9⟩ := h₁
  obtain ⟨v1, v2, v3, v4, v5, v6, v7, v8, v9⟩ := h₂
  exact ⟨u1.trans v1, u2.trans v2, u3.trans v3, u4.trans v4, u5.trans v5,
    u6.trans v6, u7.trans v7, u8.trans v8, u9.trans v9⟩

lemma loadLoop_mem {m : PIIMasker} {cmap : List (Int × String)} {dd : String} :
    ∀ (rows : List SnapshotRow) (k : Int) (tbl : List DimRow) (k' : Int)
      (tbl' : List DimRow),
      loadLoop m cmap dd (k, tbl) rows = .ok (k', tbl') →
      ∀ r ∈ tbl', (∃ r₀ ∈ tbl, sameCore r₀ r) ∨
        (r.effective_from = dd ∧ r.loaded_at = dd)
  | [], k, tbl, k', tbl', h => by
    unfold loadLoop at h
    simp only [Except.ok.injEq, Prod.mk.injEq] at h
    rw [← h.2]
    exact fun r hr => Or.inl ⟨r, hr, sameCore_refl r⟩
  | row :: rest, k, tbl, k', tbl', h => by
    unfold loadLoop at h
    cases hp : processRow m cmap dd (k, tbl) row with
    | error e => rw [hp] at h; exact absurd h (by simp)
    | ok st₁ =>
      rw [hp] at h
      obtain ⟨k₁, tbl₁⟩ := st₁
      intro r hr
      rcases loadLoop_mem rest k₁ tbl₁ k' tbl' h r hr with ⟨r₀, hr₀, hcore⟩ | hd
      · rcases processRow_ok hp with ⟨cid, _, ⟨_, _, hnew⟩ | ⟨seg, _, _, _, hch⟩ | ⟨_, _, heq⟩⟩
        · rw [hnew] at hr₀
          rcases List.mem_append.mp hr₀ with hin | hv
          · exact Or.inl ⟨r₀, hin, hcore⟩
          · rw [List.mem_singleton.mp hv] at hcore
            exact Or.inr ⟨hcore.2.2.2.2.2.2.2.1.symm, hcore.2.2.2.2.2.2.2.2.symm⟩
        · rw [hch] at hr₀
          rcases List.mem_append.mp hr₀ with hin | hv
          · rcases List.mem_map.mp hin with ⟨r₂, hr₂, hmap⟩
            exact Or.inl ⟨r₂, hr₂, sameCore_trans (hmap ▸ expireRow_sameCore cid dd r₂) hcore⟩
          · rw [List.mem_singleton.mp hv] at hcore
            exact Or.inr ⟨hcore.2.2.2.2.2.2.2.1.symm, hcore.2.2.2.2.2.2.2.2.symm⟩
        · rw [heq] at hr₀
          exact Or.inl ⟨r₀, hr₀, hcore⟩
      · exact Or.inr hd

lemma loadLoop_error_of_missing {m : PIIMasker} {cmap : List (Int × String)} {dd : String}
    {r : SnapshotRow} (hid : r.customer_id = none) :
    ∀ (rows : List SnapshotRow) (st : Int × List DimRow), r ∈ rows →
      (loadLoop m cmap dd st rows).isOk = false
  | [], _, hr => absurd hr (List.not_mem_nil r)
  | row :: rest, st, hr => by
    unfold loadLoop
    rcases List.mem_cons.mp hr with heq | htl
    · rw [← heq, processRow_none hid]
      rfl
    · cases hp : processRow m cmap dd st row with
      | error e => rfl
      | ok st₁ => exact loadLoop_error_of_missing hid rest st₁ htl

/-! ### C5 -/

/-- C5: if the natural key is present in current state and the tracked
attribute (`segment`) matches the current version, `load_dim_customer`
performs no write for that key, whatever the masked attributes (email,
phone) or passthrough attributes (first and last name) of the snapshot row
are: the table is returned unchanged. -/
theorem masked_attribute_drift_no_write (m : PIIMasker) (r : SnapshotRow) (c : Int)
    (d : Option String) (table : List DimRow)
    (hc : r.customer_id = some c)
    (hseg : dictLookup (currentMap table) c = some r.segment) :
    loadDimCustomer m [r] d table = .ok table := by
  rw [loadDimCustomer_ok_iff]
  refine ⟨maxKey table + 1, ?_⟩
  have hp : processRow m (currentMap table) (d.getD DEFAULT_DATE)
      (maxKey table + 1, table) r = .ok (maxKey table + 1, table) := by
    simp [processRow, hc, hseg]
  unfold loadLoop
  rw [hp]
  rfl

/-! ### C1 -/

lemma expire_map_id {c : Int} {dd : String} :
    ∀ {tbl : List DimRow}, curOf tbl c = [] → tbl.map (expireRow c dd) = tbl
  | [], _ => rfl
  | r :: rest, h => by
    unfold curOf at h
    rw [List.filter_cons] at h
    by_cases hp : r.customer_id = c ∧ r.is_current = true
    · rw [if_pos (by simpa using hp)] at h
      exact absurd h (by simp)
    · rw [if_neg (by simpa using hp)] at h
      have hr : expireRow c dd r = r := by
        unfold expireRow
        exact if_neg (fun hcc => hp ⟨hcc.1, hcc.2⟩)
      rw [List.map_cons, hr, expire_map_id h]

lemma map_expire_of_unique {c : Int} {dd : String} :
    ∀ (tbl : List DimRow) (t₀ : DimRow), curOf tbl c = [t₀] →
      ∃ i, ∃ hi : i < tbl.length, tbl.get ⟨i, hi⟩ = t₀ ∧
        tbl.map (expireRow c dd) =
          tbl.set i { t₀ with effective_to := some dd, is_current := false }
  | [], t₀, h => absurd h (by simp [curOf])
  | r :: rest, t₀, h => by
    unfold curOf at h
    rw [List.filter_cons] at h
    by_cases hp : r.customer_id = c ∧ r.is_current = true
    · rw [if_pos (by simpa using hp)] at h
      simp only [List.cons.injEq] at h
      refine ⟨0, by simp, h.1, ?_⟩
      have hrest : rest.map (expireRow c dd) = rest := expire_map_id h.2
      have hr : expireRow c dd r = { t₀ with effective_to := some dd, is_current := false } := by
        unfold expireRow
        rw [if_pos ⟨hp.1, hp.2⟩, h.1]
      rw [List.map_cons, hr, hrest]
      rfl
    · rw [if_neg (by simpa using hp)] at h
      obtain ⟨i, hi, hget, hmap⟩ := map_expire_of_unique rest t₀ h
      refine ⟨i + 1, by simpa using Nat.succ_lt_succ hi, hget, ?_⟩
      have hr : expireRow c dd r = r := by
        unfold expireRow
        exact if_neg (fun hcc => hp ⟨hcc.1, hcc.2⟩)
      rw [List.map_cons, hr, hmap]
      rfl

/-- C1: classification of a snapshot row against current state.  If the
natural key is absent from `current_state`, the call inserts exactly one new
current version row with the freshly allocated surrogate key
`maxKey table + 1` (`snapVersion` has `effective_from = as_of_date`,
`effective_to = null`, `is_current = true`).  If the key is present with a
differing tracked attribute, the call performs exactly two effects: the
expiry update (which, when the key has exactly one current row, rewrites
exactly that row, setting only `effective_to = as_of_date` and
`is_current = false`) and the insertion of exactly one new version row with
a fresh surrogate key and the snapshot's attribute values. -/
theorem snapshot_transition_effects (m : PIIMasker) (dd : String) (table : List DimRow)
    (r : SnapshotRow) (c : Int) (hc : r.customer_id = some c) :
    (dictLookup (currentMap table) c = none →
      loadDimCustomer m [r] (some dd) table =
        .ok (table ++ [snapVersion m (maxKey table + 1) c r dd])) ∧
    (∀ seg, dictLookup (currentMap table) c = some seg → seg ≠ r.segment →
      loadDimCustomer m [r] (some dd) table =
        .ok (table.map (expireRow c dd) ++ [snapVersion m (maxKey table + 1) c r dd]) ∧
      ∀ t₀, curOf table c = [t₀] →
        ∃ i, ∃ hi : i < table.length, table.get ⟨i, hi⟩ = t₀ ∧
          table.map (expireRow c dd) =
            table.set i { t₀ with effective_to := some dd, is_current := false }) := by
  constructor
  · intro hnone
    rw [loadDimCustomer_ok_iff]
    exact ⟨maxKey table + 1 + 1, by simp [loadLoop, processRow, hc, hnone]⟩
  · intro seg hseg hne
    constructor
    · rw [loadDimCustomer_ok_iff]
      exact ⟨maxKey table + 1 + 1, by simp [loadLoop, processRow, hc, hseg, hne]⟩
    · exact fun t₀ ht => map_expire_of_unique table t₀ ht

/-! ### Concrete fixtures for witnesses and counterexamples -/

/-- A concrete deterministic masker standing in for the PII masking adapter
in witness computations. -/
def testMasker : PIIMasker := ⟨fun e => "tok:" ++ e, fun p => "red:" ++ p⟩

/-- A malformed snapshot row: the natural key is missing. -/
def badRow : SnapshotRow := ⟨none, "bad@example.com", "555-0000", "Bad", "Row", "gold"⟩

/-- A well-formed snapshot row. -/
def goodRow : SnapshotRow := ⟨some 7, "good@example.com", "555-1111", "Good", "Row", "gold"⟩

/-- A stored current version row for natural key 7 with segment `gold`. -/
def curRow7 : DimRow :=
  mkVersion 3 7 "tok:old@example.com" "red:555-2222" "Old" "Name" "gold" "2025-01-01"

/-- A snapshot row for natural key 7 whose tracked attribute changed. -/
def changeRow : SnapshotRow :=
  ⟨some 7, "new@example.com", "555-9999", "New", "Name", "platinum"⟩

/-- First of two snapshot rows sharing natural key 1 (segment `A`). -/
def dupA : SnapshotRow := ⟨some 1, "a@x.com", "111", "Ada", "Ash", "A"⟩

/-- Second snapshot row with the same natural key 1 but segment `B`. -/
def dupB : SnapshotRow := ⟨some 1, "a@x.com", "111", "Ada", "Ash", "B"⟩

/-- The table produced by loading the duplicate-key snapshot `[dupA, dupB]`
on an empty table: two rows for natural key 1, both current. -/
def dupT1 : List DimRow :=
  [⟨1, 1, "tok:a@x.com", "red:111", "Ada", "Ash", "A", "2025-01-01", none, true,
    "2025-01-01"⟩,
   ⟨2, 1, "tok:a@x.com", "red:111", "Ada", "Ash", "B", "2025-01-01", none, true,
    "2025-01-01"⟩]

/-- The table produced by re-applying the duplicate-key snapshot to `dupT1`:
both existing rows expired and a third version inserted. -/
def dupT2 : List DimRow :=
  [⟨1, 1, "tok:a@x.com", "red:111", "Ada", "Ash", "A", "2025-01-01",
    some "2025-01-01", false, "2025-01-01"⟩,
   ⟨2, 1, "tok:a@x.com", "red:111", "Ada", "Ash", "B", "2025-01-01",
    some "2025-01-01", false, "2025-01-01"⟩,
   ⟨3, 1, "tok:a@x.com", "red:111", "Ada", "Ash", "A", "2025-01-01", none, true,
    "2025-01-01"⟩]

/-- The history produced by two well-formed loads: key 7 inserted on
2025-01-01 (segment `gold`), changed to `platinum` on 2025-01-15. -/
def histT : List DimRow :=
  [⟨1, 7, "tok:good@example.com", "red:555-1111", "Good", "Row", "gold",
    "2025-01-01", some "2025-01-15", false, "2025-01-01"⟩,
   ⟨2, 7, "tok:new@example.com", "red:555-9999", "New", "Name", "platinum",
    "2025-01-15", none, true, "2025-01-15"⟩]

/-- The table produced by loading `changeRow` against `[curRow7]` at
2025-02-01: `curRow7` expired in place plus one new current version. -/
def chT : List DimRow :=
  [⟨3, 7, "tok:old@example.com", "red:555-2222", "Old", "Name", "gold",
    "2025-01-01", some "2025-02-01", false, "2025-01-01"⟩,
   ⟨4, 7, "tok:new@example.com", "red:555-9999", "New", "Name", "platinum",
    "2025-02-01", none, true, "2025-02-01"⟩]


/-- Witness for C1 at concrete inputs: one New transition on an empty table
and one Changed transition against `curRow7`. -/
theorem snapshot_transition_effects_witness :
    loadDimCustomer testMasker [goodRow] (some "2025-02-01") [] =
      .ok ([] ++ [snapVersion testMasker (maxKey [] + 1) 7 goodRow "2025-02-01"]) ∧
    loadDimCustomer testMasker [changeRow] (some "2025-02-01") [curRow7] =
      .ok ([curRow7].map (expireRow 7 "2025-02-01") ++
        [snapVersion testMasker (maxKey [curRow7] + 1) 7 changeRow "2025-02-01"]) :=
  ⟨(snapshot_transition_effects testMasker "2025-02-01" [] goodRow 7 rfl).1 rfl,
   ((snapshot_transition_effects testMasker "2025-02-01" [curRow7] changeRow 7 rfl).2
      "gold" rfl (by decide)).1⟩

/-- Witness for C5 at a concrete input: same natural key and segment as
`curRow7` but different email, phone and name fields; nothing is written. -/
theorem masked_attribute_drift_no_write_witness :
    loadDimCustomer testMasker [goodRow] (some "2025-02-01") [curRow7] = .ok [curRow7] :=
  masked_attribute_drift_no_write testMasker goodRow 7 (some "2025-02-01") [curRow7]
    rfl rfl

/-! ### C9 -/

/-- The frame relation between a table before and after a load with
effective date `dd`: no row is deleted (the old table is a positional
prefix, row for row), and each pre-existing row keeps every column
unchanged except possibly the `effective_to`/`is_current` pair, which may
only change to the expiry form `(some dd, false)`. -/
def frameRel (dd : String) (a b : List DimRow) : Prop :=
  a.length ≤ b.length ∧
  ∀ i (hi : i < a.length) (hi' : i < b.length),
    sameCore (a.get ⟨i, hi⟩) (b.get ⟨i, hi'⟩) ∧
    ((b.get ⟨i, hi'⟩).effective_to = (a.get ⟨i, hi⟩).effective_to ∧
      (b.get ⟨i, hi'⟩).is_current = (a.get ⟨i, hi⟩).is_current ∨
     (b.get ⟨i, hi'⟩).effective_to = some dd ∧ (b.get ⟨i, hi'⟩).is_current = false)

lemma frameRel_refl (dd : String) (a : List DimRow) : frameRel dd a a := by
  refine ⟨le_rfl, fun i hi hi' => ?_⟩
  exact ⟨sameCore_refl _, Or.inl ⟨rfl, rfl⟩⟩

lemma frameRel_trans {dd : String} {a b c : List DimRow}
    (h₁ : frameRel dd a b) (h₂ : frameRel dd b c) : frameRel dd a c := by
  refine ⟨h₁.1.trans h₂.1, fun i hi hi' => ?_⟩
  have hib : i < b.length := lt_of_lt_of_le hi h₁.1
  obtain ⟨hc₁, hd₁⟩ := h₁.2 i hi hib
  obtain ⟨hc₂, hd₂⟩ := h₂.2 i hib hi'
  refine ⟨sameCore_trans hc₁ hc₂, ?_⟩
  rcases hd₂ with ⟨he₂, hi₂⟩ | hx₂
  · rcases hd₁ with ⟨he₁, hi₁⟩ | hx₁
    · exact Or.inl ⟨he₂.trans he₁, hi₂.trans hi₁⟩
    · exact Or.inr ⟨he₂.trans hx₁.1, hi₂.trans hx₁.2⟩
  · exact Or.inr hx₂

lemma frameRel_append (dd : String) (a l : List DimRow) : frameRel dd a (a ++ l) := by
  refine ⟨by simp, fun i hi hi' => ?_⟩
  have : (a ++ l).get ⟨i, hi'⟩ = a.get ⟨i, hi⟩ := by
    simp [List.getElem_append_left hi]
  rw [this]
  exact ⟨sameCore_refl _, Or.inl ⟨rfl, rfl⟩⟩

lemma frameRel_expire (dd : String) (c : Int) (a : List DimRow) :
    frameRel dd a (a.map (expireRow c dd)) := by
  refine ⟨by simp, fun i hi hi' => ?_⟩
  have : (a.map (expireRow c dd)).get ⟨i, hi'⟩ = expireRow c dd (a.get ⟨i, hi⟩) := by
    simp
  rw [this]
  rcases expireRow_cases c dd (a.get ⟨i, hi⟩) with he | ⟨_, _, he⟩
  · rw [he]
    exact ⟨sameCore_refl _, Or.inl ⟨rfl, rfl⟩⟩
  · have hcore := expireRow_sameCore c dd (a.get ⟨i, hi⟩)
    rw [he] at hcore ⊢
    exact ⟨hcore, Or.inr ⟨rfl, rfl⟩⟩

lemma loadLoop_frame {m : PIIMasker} {cmap : List (Int × String)} {dd : String} :
    ∀ (rows : List SnapshotRow) (k : Int) (tbl : List DimRow) (k' : Int)
      (tbl' : List DimRow),
      loadLoop m cmap dd (k, tbl) rows = .ok (k', tbl') → frameRel dd tbl tbl'
  | [], k, tbl, k', tbl', h => by
    unfold loadLoop at h
    simp only [Except.ok.injEq, Prod.mk.injEq] at h
    rw [← h.2]
    exact frameRel_refl dd tbl
  | row :: rest, k, tbl, k', tbl', h => by
    unfold loadLoop at h
    cases hp : processRow m cmap dd (k, tbl) row with
    | error e => rw [hp] at h; exact absurd h (by simp)
    | ok st₁ =>
      rw [hp] at h
      obtain ⟨k₁, tbl₁⟩ := st₁
      have htail := loadLoop_frame rest k₁ tbl₁ k' tbl' h
      refine frameRel_trans ?_ htail
      rcases processRow_ok hp with ⟨cid, _, ⟨_, _, hnew⟩ | ⟨seg, _, _, _, hch⟩ | ⟨_, _, heq⟩⟩
      · rw [hnew]; exact frameRel_append dd tbl _
      · rw [hch]
        exact frameRel_trans (frameRel_expire dd cid tbl) (frameRel_append dd _ _)
      · rw [heq]; exact frameRel_refl dd tbl

/-- C9: a load never deletes a dimension version row and never mutates any
column of a pre-existing row other than the `effective_to`/`is_current`
pair written on expiry: the old table is a positional prefix of the new
one up to that pair, so `customer_key` (surrogate), `customer_id` (natural
key) and all attribute values are immutable once written. -/
theorem no_destructive_writes (m : PIIMasker) (snap : List SnapshotRow)
    (d : Option String) (table t' : List DimRow)
    (h : loadDimCustomer m snap d table = .ok t') :
    frameRel (d.getD DEFAULT_DATE) table t' := by
  rw [loadDimCustomer_ok_iff] at h
  obtain ⟨k', hk⟩ := h
  exact loadLoop_frame snap (maxKey table + 1) table k' t' hk

/-! ### C4 -/

/-- The column of surrogate keys of a table, in row order. -/
def keyList (tbl : List DimRow) : List Int := tbl.map (fun r => r.customer_key)

lemma mem_le_maxKey {tbl : List DimRow} {j : Int} (hj : j ∈ keyList tbl) :
    j ≤ maxKey tbl := by
  unfold maxKey
  have : Std.Antisymm (α := Int) (· ≤ ·) := ⟨fun h h' => le_antisymm h h'⟩
  cases hm : (tbl.map (fun r => r.customer_key)).max? with
  | none =>
    unfold keyList at hj
    simp [List.max?_eq_none_iff.mp hm] at hj
  | some a =>
    rw [List.max?_eq_some_iff] at hm
    · exact le_trans (hm.2 j hj) (by simp)
    all_goals simp [le_total]

lemma keyList_append (a b : List DimRow) : keyList (a ++ b) = keyList a ++ keyList b := by
  simp [keyList]

lemma keyList_expire (c : Int) (dd : String) (tbl : List DimRow) :
    keyList (tbl.map (expireRow c dd)) = keyList tbl := by
  unfold keyList
  rw [List.map_map]
  refine List.map_congr_left (fun r _ => ?_)
  rcases expireRow_cases c dd r with he | ⟨_, _, he⟩ <;> simp [he]

lemma loadLoop_keys {m : PIIMasker} {cmap : List (Int × String)} {dd : String} :
    ∀ (rows : List SnapshotRow) (k : Int) (tbl : List DimRow) (k' : Int)
      (tbl' : List DimRow),
      loadLoop m cmap dd (k, tbl) rows = .ok (k', tbl') →
      (∀ j ∈ keyList tbl, j < k) →
      ∃ A, keyList tbl' = keyList tbl ++ A ∧
        List.Chain' (· < ·) A ∧
        (∀ a ∈ A, ∀ j ∈ keyList tbl, j < a) ∧
        (A.head? = some k ∨ A = []) ∧
        (∀ j ∈ keyList tbl', j < k')
  | [], k, tbl, k', tbl', h, hk => by
    unfold loadLoop at h
    simp only [Except.ok.injEq, Prod.mk.injEq] at h
    rw [← h.2, ← h.1]
    exact ⟨[], by simp, by simp, by simp, Or.inr rfl, hk⟩
  | row :: rest, k, tbl, k', tbl', h, hk => by
    unfold loadLoop at h
    cases hp : processRow m cmap dd (k, tbl) row with
    | error e => rw [hp] at h; exact absurd h (by simp)
    | ok st₁ =>
      rw [hp] at h
      obtain ⟨k₁, tbl₁⟩ := st₁
      rcases processRow_ok hp with
        ⟨cid, _, ⟨_, hk₁, hnew⟩ | ⟨seg, _, _, hk₁, hch⟩ | ⟨_, hk₁, heq⟩⟩
      · -- New: one row with key k appended, next key k + 1
        have hkeys : keyList tbl₁ = keyList tbl ++ [k] := by
          rw [hnew, keyList_append]; rfl
        have hk' : ∀ j ∈ keyList tbl₁, j < k₁ := by
          rw [hkeys, hk₁]
          intro j hj
          rcases List.mem_append.mp hj with hj | hj
          · exact lt_trans (hk j hj) (by omega)
          · rw [List.mem_singleton.mp hj]; omega
        obtain ⟨A₁, he₁, hc₁, ha₁, hh₁, hb₁⟩ := loadLoop_keys rest k₁ tbl₁ k' tbl' h hk'
        refine ⟨k :: A₁, ?_, ?_, ?_, Or.inl rfl, hb₁⟩
        · rw [he₁, hkeys, List.append_assoc]; rfl
        · refine List.chain'_cons'.mpr ⟨fun b hb => ?_, hc₁⟩
          have hbA : b ∈ A₁ := List.mem_of_mem_head? hb
          exact ha₁ b hbA k (by rw [hkeys]; simp)
        · intro a ha j hj
          rcases List.mem_cons.mp ha with rfl | haA
          · exact hk j hj
          · exact ha₁ a haA j (by rw [hkeys]; exact List.mem_append_left _ hj)
      · -- Changed: expiry preserves keys, one row with key k appended
        have hkeys : keyList tbl₁ = keyList tbl ++ [k] := by
          rw [hch, keyList_append, keyList_expire]; rfl
        have hk' : ∀ j ∈ keyList tbl₁, j < k₁ := by
          rw [hkeys, hk₁]
          intro j hj
          rcases List.mem_append.mp hj with hj | hj
          · exact lt_trans (hk j hj) (by omega)
          · rw [List.mem_singleton.mp hj]; omega
        obtain ⟨A₁, he₁, hc₁, ha₁, hh₁, hb₁⟩ := loadLoop_keys rest k₁ tbl₁ k' tbl' h hk'
        refine ⟨k :: A₁, ?_, ?_, ?_, Or.inl rfl, hb₁⟩
        · rw [he₁, hkeys, List.append_assoc]; rfl
        · refine List.chain'_cons'.mpr ⟨fun b hb => ?_, hc₁⟩
          have hbA : b ∈ A₁ := List.mem_of_mem_head? hb
          exact ha₁ b hbA k (by rw [hkeys]; simp)
        · intro a ha j hj
          rcases List.mem_cons.mp ha with rfl | haA
          · exact hk j hj
          · exact ha₁ a haA j (by rw [hkeys]; exact List.mem_append_left _ hj)
      · -- Unchanged
        rw [heq] at h
        rw [hk₁] at h
        exact loadLoop_keys rest k tbl k' tbl' h hk

lemma load_keys {m : PIIMasker} {snap : List SnapshotRow} {d : Option String}
    {table t' : List DimRow} (h : loadDimCustomer m snap d table = .ok t') :
    ∃ A, keyList t' = keyList table ++ A ∧
      List.Chain' (· < ·) A ∧
      (∀ a ∈ A, ∀ j ∈ keyList table, j < a) ∧
      (A.head? = some (maxKey table + 1) ∨ A = []) := by
  rw [loadDimCustomer_ok_iff] at h
  obtain ⟨k', hk⟩ := h
  obtain ⟨A, he, hc, ha, hh, _⟩ := loadLoop_keys snap (maxKey table + 1) table k' t' hk
    (fun j hj => lt_of_le_of_lt (mem_le_maxKey hj) (by omega))
  exact ⟨A, he, hc, ha, hh⟩

lemma loadSeq_keys {m : PIIMasker} :
    ∀ (batches : List (List SnapshotRow × Option String)) (table t' : List DimRow),
      loadSeq m batches table = .ok t' →
      ∃ A, keyList t' = keyList table ++ A ∧
        List.Chain' (· < ·) A ∧
        (∀ a ∈ A, ∀ j ∈ keyList table, j < a)
  | [], table, t', h => by
    unfold loadSeq at h
    simp only [Except.ok.injEq] at h
    rw [← h]
    exact ⟨[], by simp, by simp, by simp⟩
  | b :: rest, table, t', h => by
    unfold loadSeq at h
    cases hb : loadDimCustomer m b.1 b.2 table with
    | error e => rw [hb] at h; exact absurd h (by simp)
    | ok t₁ =>
      rw [hb] at h
      obtain ⟨A₁, he₁, hc₁, ha₁, _⟩ := load_keys hb
      obtain ⟨A₂, he₂, hc₂, ha₂⟩ := loadSeq_keys rest t₁ t' h
      refine ⟨A₁ ++ A₂, by rw [he₂, he₁, List.append_assoc], ?_, ?_⟩
      · refine List.chain'_append.mpr ⟨hc₁, hc₂, fun x hx y hy => ?_⟩
        have hxA : x ∈ A₁ := List.mem_of_mem_getLast? hx
        have hyA : y ∈ A₂ := List.mem_of_mem_head? hy
        exact ha₂ y hyA x (by rw [he₁]; exact List.mem_append_right _ hxA)
      · intro a ha j hj
        rcases List.mem_append.mp ha with ha | ha
        · exact ha₁ a ha j hj
        · exact ha₂ a ha j (by rw [he₁]; exact List.mem_append_left _ hj)

/-- C4: across any sequence of loads the pre-existing surrogate keys stay
in place, the keys assigned by the sequence (the suffix past the original
table) are strictly increasing in assignment order, and every assigned key
is strictly greater than every pre-existing key — so no key is ever
assigned twice, including across invocations that assign none.  Moreover a
single invocation that inserts anything gives its first insert the key
`maxKey table + 1` (= `MAX(customer_key) + 1`, with `maxKey [] + 1 = 1` on
an empty table, matching `COALESCE(MAX(customer_key), 0) + 1`). -/
theorem surrogate_key_monotonicity (m : PIIMasker)
    (batches : List (List SnapshotRow × Option String)) (table t' : List DimRow)
    (h : loadSeq m batches table = .ok t') :
    (keyList table <+: keyList t') ∧
    List.Chain' (· < ·) ((keyList t').drop table.length) ∧
    (∀ a ∈ (keyList t').drop table.length, ∀ j ∈ keyList table, j < a) ∧
    (∀ (snap : List SnapshotRow) (dd : Option String) (u u' : List DimRow),
      loadDimCustomer m snap dd u = .ok u' →
      (keyList u').get? u.length = none ∨
      (keyList u').get? u.length = some (maxKey u + 1)) ∧
    maxKey [] + 1 = 1 := by
  obtain ⟨A, he, hc, ha⟩ := loadSeq_keys batches table t' h
  have hlen : table.length = (keyList table).length := by simp [keyList]
  have hdrop : (keyList t').drop table.length = A := by
    rw [he, hlen, List.drop_left]
  refine ⟨⟨A, he.symm⟩, by rw [hdrop]; exact hc, by rw [hdrop]; exact ha, ?_, rfl⟩
  intro snap dd u u' hu
  obtain ⟨B, heB, _, _, hhB⟩ := load_keys hu
  have hlenu : u.length = (keyList u).length := by simp [keyList]
  have : (keyList u').get? u.length = B.get? 0 := by
    rw [heB, hlenu, List.get?_eq_getElem?, List.get?_eq_getElem?,
      List.getElem?_append_right le_rfl]
    simp
  rw [this]
  rcases hhB with hB | hB
  · right
    rw [show B.get? 0 = B.head? from by cases B <;> rfl, hB]
  · left
    rw [hB]
    rfl

/-! ### C2 -/

lemma dictLookup_append (m₁ m₂ : List (Int × String)) (c : Int) :
    dictLookup (m₁ ++ m₂) c =
      match dictLookup m₂ c with
      | some v => some v
      | none => dictLookup m₁ c := by
  induction m₁ with
  | nil => cases hx : dictLookup m₂ c <;> simp [hx, dictLookup]
  | cons p rest ih =>
    rw [List.cons_append]
    show (match dictLookup (rest ++ m₂) c with
      | some v => some v
      | none => if p.1 = c then some p.2 else none) = _
    rw [ih]
    cases hx : dictLookup m₂ c with
    | none => rfl
    | some v => rfl

lemma dictLookup_snoc (mm : List (Int × String)) (k : Int) (v : String) (c : Int) :
    dictLookup (mm ++ [(k, v)]) c = if k = c then some v else dictLookup mm c := by
  rw [dictLookup_append]
  by_cases hk : k = c
  · simp [dictLookup, hk]
  · simp only [dictLookup, if_neg hk]

lemma dictLookup_filter_ne {c₁ c : Int} (h : c ≠ c₁) :
    ∀ mm : List (Int × String),
      dictLookup (mm.filter (fun p => decide (p.1 ≠ c₁))) c = dictLookup mm c
  | [] => rfl
  | p :: rest => by
    rw [List.filter_cons]
    by_cases hp : p.1 ≠ c₁
    · rw [if_pos (by simpa using hp)]
      show (match dictLookup (rest.filter (fun p => decide (p.1 ≠ c₁))) c with
        | some v => some v
        | none => if p.1 = c then some p.2 else none) = _
      rw [dictLookup_filter_ne h rest]
      rfl
    · rw [if_neg (by simpa using hp)]
      push_neg at hp
      rw [dictLookup_filter_ne h rest]
      show dictLookup rest c = (match dictLookup rest c with
        | some v => some v
        | none => if p.1 = c then some p.2 else none)
      cases hx : dictLookup rest c with
      | none =>
        simp only [hx]
        rw [hp]
        exact (if_neg (fun hcc => h hcc.symm)).symm
      | some v => rfl

lemma currentMap_append (a b : List DimRow) :
    currentMap (a ++ b) = currentMap a ++ currentMap b := by
  simp [currentMap]

lemma currentMap_cons (r : DimRow) (rest : List DimRow) :
    currentMap (r :: rest) =
      if r.is_current = true then (r.customer_id, r.segment) :: currentMap rest
      else currentMap rest := by
  unfold currentMap
  rw [List.filter_cons]
  by_cases hc : r.is_current = true
  · rw [if_pos hc, if_pos hc, List.map_cons]
  · rw [if_neg hc, if_neg hc]

lemma currentMap_expire (c₁ : Int) (dd : String) :
    ∀ tbl : List DimRow,
      currentMap (tbl.map (expireRow c₁ dd)) =
        (currentMap tbl).filter (fun p => decide (p.1 ≠ c₁))
  | [] => rfl
  | r :: rest => by
    have ih := currentMap_expire c₁ dd rest
    rw [List.map_cons, currentMap_cons, currentMap_cons]
    by_cases hcur : r.is_current = true
    · by_cases hcid : r.customer_id = c₁
      · have hf : expireRow c₁ dd r =
            { r with effective_to := some dd, is_current := false } := by
          unfold expireRow
          exact if_pos ⟨hcid, hcur⟩
        rw [hf, if_neg (by simp), if_pos hcur, List.filter_cons,
          if_neg (by simp [hcid])]
        exact ih
      · have hf : expireRow c₁ dd r = r := by
          unfold expireRow
          exact if_neg (fun hcc => hcid hcc.1)
        rw [hf, if_pos hcur, if_pos hcur, List.filter_cons,
          if_pos (by simpa using hcid), ih]
    · have hf : expireRow c₁ dd r = r := by
        unfold expireRow
        exact if_neg (fun hcc => hcur hcc.2)
      rw [hf, if_neg hcur, if_neg hcur]
      exact ih

lemma currentMap_snapVersion (m : PIIMasker) (k cid : Int) (row : SnapshotRow)
    (dd : String) : currentMap [snapVersion m k cid row dd] = [(cid, row.segment)] := rfl

lemma loadLoop_preserves_lookup {m : PIIMasker} {cmap : List (Int × String)}
    {dd : String} {c : Int} :
    ∀ (rows : List SnapshotRow) (k : Int) (tbl : List DimRow) (k' : Int)
      (tbl' : List DimRow),
      loadLoop m cmap dd (k, tbl) rows = .ok (k', tbl') →
      (∀ r ∈ rows, r.customer_id ≠ some c) →
      dictLookup (currentMap tbl') c = dictLookup (currentMap tbl) c
  | [], k, tbl, k', tbl', h, _ => by
    unfold loadLoop at h
    simp only [Except.ok.injEq, Prod.mk.injEq] at h
    rw [← h.2]
  | row :: rest, k, tbl, k', tbl', h, hnc => by
    unfold loadLoop at h
    cases hp : processRow m cmap dd (k, tbl) row with
    | error e => rw [hp] at h; exact absurd h (by simp)
    | ok st₁ =>
      rw [hp] at h
      obtain ⟨k₁, tbl₁⟩ := st₁
      have htail := loadLoop_preserves_lookup rest k₁ tbl₁ k' tbl' h
        (fun r hr => hnc r (List.mem_cons_of_mem _ hr))
      rw [htail]
      rcases processRow_ok hp with
        ⟨cid, hcid, ⟨_, _, hnew⟩ | ⟨seg, _, _, _, hch⟩ | ⟨_, _, heq⟩⟩
      · have hne : cid ≠ c := fun hcc =>
          hnc row (List.mem_cons_self _ _) (hcc ▸ hcid)
        rw [hnew, currentMap_append, currentMap_snapVersion, dictLookup_snoc,
          if_neg hne]
      · have hne : cid ≠ c := fun hcc =>
          hnc row (List.mem_cons_self _ _) (hcc ▸ hcid)
        rw [hch, currentMap_append, currentMap_snapVersion, dictLookup_snoc,
          if_neg hne, currentMap_expire, dictLookup_filter_ne (fun hcc => hne hcc.symm)]
      · rw [heq]

lemma loadLoop_establishes {m : PIIMasker} {cmap : List (Int × String)} {dd : String} :
    ∀ (rows : List SnapshotRow) (k : Int) (tbl : List DimRow) (k' : Int)
      (tbl' : List DimRow),
      loadLoop m cmap dd (k, tbl) rows = .ok (k', tbl') →
      (rows.map (fun r => r.customer_id)).Nodup →
      (∀ r ∈ rows, ∀ c, r.customer_id = some c →
        dictLookup (currentMap tbl) c = dictLookup cmap c) →
      ∀ r ∈ rows, ∀ c, r.customer_id = some c →
        dictLookup (currentMap tbl') c = some r.segment
  | [], _, _, _, _, _, _, _ => by intro r hr; exact absurd hr (List.not_mem_nil r)
  | row :: rest, k, tbl, k', tbl', h, hnd, hcm => by
    unfold loadLoop at h
    cases hp : processRow m cmap dd (k, tbl) row with
    | error e => rw [hp] at h; exact absurd h (by simp)
    | ok st₁ =>
      rw [hp] at h
      obtain ⟨k₁, tbl₁⟩ := st₁
      have hhead : row.customer_id ∉ rest.map (fun r => r.customer_id) :=
        (List.nodup_cons.mp hnd).1
      obtain ⟨cid, hcid, hcases⟩ := processRow_ok hp
      -- after processing the head row, its key resolves to its segment
      have hstep : dictLookup (currentMap tbl₁) cid = some row.segment := by
        rcases hcases with ⟨_, _, hnew⟩ | ⟨seg, _, _, _, hch⟩ | ⟨hlk, _, heq⟩
        · rw [hnew, currentMap_append, currentMap_snapVersion, dictLookup_snoc,
            if_pos rfl]
        · rw [hch, currentMap_append, currentMap_snapVersion, dictLookup_snoc,
            if_pos rfl]
        · rw [heq, hcm row (List.mem_cons_self _ _) cid hcid, hlk]
      -- other keys are untouched by the head row
      have hother : ∀ c, c ≠ cid →
          dictLookup (currentMap tbl₁) c = dictLookup (currentMap tbl) c := by
        intro c hne
        rcases hcases with ⟨_, _, hnew⟩ | ⟨seg, _, _, _, hch⟩ | ⟨_, _, heq⟩
        · rw [hnew, currentMap_append, currentMap_snapVersion, dictLookup_snoc,
            if_neg (fun hcc => hne hcc.symm)]
        · rw [hch, currentMap_append, currentMap_snapVersion, dictLookup_snoc,
            if_neg (fun hcc => hne hcc.symm), currentMap_expire,
            dictLookup_filter_ne hne]
        · rw [heq]
      intro r hr c hc
      rcases List.mem_cons.mp hr with rfl | hrt
      · -- the head row itself
        have hcc : c = cid := by rw [hcid] at hc; exact (Option.some.injEq _ _ ▸ hc).symm
        subst hcc
        have hne : ∀ r' ∈ rest, r'.customer_id ≠ some c := by
          intro r' hr' hbad
          apply hhead
          rw [hcid, ← hbad]
          exact List.mem_map.mpr ⟨r', hr', rfl⟩
        rw [loadLoop_preserves_lookup rest k₁ tbl₁ k' tbl' h hne]
        exact hstep
      · -- a later row
        refine loadLoop_establishes rest k₁ tbl₁ k' tbl' h (List.nodup_cons.mp hnd).2
          ?_ r hrt c hc
        intro r' hr' c' hc'
        have hne : c' ≠ cid := by
          intro hcc
          apply hhead
          have : row.customer_id = r'.customer_id := by rw [hcid, hc', hcc]
          rw [this]
          exact List.mem_map.mpr ⟨r', hr', rfl⟩
        rw [hother c' hne]
        exact hcm r' (List.mem_cons_of_mem _ hr') c' hc'

lemma loadLoop_unchanged {m : PIIMasker} {cmap : List (Int × String)} {dd : String} :
    ∀ (rows : List SnapshotRow) (st : Int × List DimRow),
      (∀ r ∈ rows, ∃ c, r.customer_id = some c ∧ dictLookup cmap c = some r.segment) →
      loadLoop m cmap dd st rows = .ok st
  | [], st, _ => rfl
  | row :: rest, st, hall => by
    obtain ⟨c, hc, hlk⟩ := hall row (List.mem_cons_self _ _)
    have hp : processRow m cmap dd st row = .ok st := by
      simp [processRow, hc, hlk]
    unfold loadLoop
    rw [hp]
    exact loadLoop_unchanged rest st (fun r hr => hall r (List.mem_cons_of_mem _ hr))

lemma loadLoop_ok_some_id {m : PIIMasker} {cmap : List (Int × String)} {dd : String} :
    ∀ (rows : List SnapshotRow) (st st' : Int × List DimRow),
      loadLoop m cmap dd st rows = .ok st' →
      ∀ r ∈ rows, ∃ c, r.customer_id = some c
  | [], _, _, _ => by intro r hr; exact absurd hr (List.not_mem_nil r)
  | row :: rest, st, st', h => by
    unfold loadLoop at h
    cases hp : processRow m cmap dd st row with
    | error e => rw [hp] at h; exact absurd h (by simp)
    | ok st₁ =>
      rw [hp] at h
      intro r hr
      rcases List.mem_cons.mp hr with rfl | hrt
      · obtain ⟨k, tbl⟩ := st
        obtain ⟨k₁, tbl₁⟩ := st₁
        obtain ⟨cid, hcid, _⟩ := processRow_ok hp
        exact ⟨cid, hcid⟩
      · exact loadLoop_ok_some_id rest st₁ st' h r hrt

/-- C2 (amended): re-applying the same snapshot at the same `as_of_date` is
a pure no-op, for every starting table, **provided each natural key occurs
at most once in the snapshot**: if the first call succeeds and returns
`t'`, the second call returns `t'` unchanged — the loader recognises every
row as Unchanged relative to the state it itself just wrote. -/
theorem idempotent_reapplication (m : PIIMasker) (snap : List SnapshotRow)
    (d : Option String) (table t' : List DimRow)
    (hnd : (snap.map (fun r => r.customer_id)).Nodup)
    (h : loadDimCustomer m snap d table = .ok t') :
    loadDimCustomer m snap d t' = .ok t' := by
  rw [loadDimCustomer_ok_iff] at h
  obtain ⟨k', hk⟩ := h
  have hest := loadLoop_establishes snap (maxKey table + 1) table k' t' hk hnd
    (fun r _ c _ => rfl)
  have hids := loadLoop_ok_some_id snap (maxKey table + 1, table) (k', t') hk
  rw [loadDimCustomer_ok_iff]
  refine ⟨maxKey t' + 1, ?_⟩
  apply loadLoop_unchanged
  intro r hr
  obtain ⟨c, hc⟩ := hids r hr
  exact ⟨c, hc, hest r hr c hc⟩

/-- C2 counterexample: with a snapshot in which the same natural key occurs
twice with different tracked values, re-applying the very same snapshot at
the very same date is **not** a no-op: the second call expires both rows the
first call wrote and inserts a third version. -/
theorem idempotent_reapplication_counterexample :
    loadDimCustomer testMasker [dupA, dupB] (some "2025-01-01") [] = .ok dupT1 ∧
    loadDimCustomer testMasker [dupA, dupB] (some "2025-01-01") dupT1 = .ok dupT2 ∧
    dupT2 ≠ dupT1 :=
  ⟨rfl, rfl, by decide⟩

/-- Witness for the amended C2 theorem at a concrete input. -/
theorem idempotent_reapplication_witness :
    loadDimCustomer testMasker [goodRow] (some "2025-01-01")
      [mkVersion 1 7 "tok:good@example.com" "red:555-1111" "Good" "Row" "gold"
        "2025-01-01"] =
      .ok [mkVersion 1 7 "tok:good@example.com" "red:555-1111" "Good" "Row" "gold"
        "2025-01-01"] :=
  idempotent_reapplication testMasker [goodRow] (some "2025-01-01") []
    [mkVersion 1 7 "tok:good@example.com" "red:555-1111" "Good" "Row" "gold"
      "2025-01-01"] (by decide) rfl

/-- Witness for C4 at a concrete two-batch sequence from an empty table. -/
theorem surrogate_key_monotonicity_witness :
    (keyList [] <+: keyList histT) ∧
    List.Chain' (· < ·) ((keyList histT).drop (List.length ([] : List DimRow))) ∧
    (∀ a ∈ (keyList histT).drop (List.length ([] : List DimRow)),
      ∀ j ∈ keyList [], j < a) ∧
    (∀ (snap : List SnapshotRow) (dd : Option String) (u u' : List DimRow),
      loadDimCustomer testMasker snap dd u = .ok u' →
      (keyList u').get? u.length = none ∨
      (keyList u').get? u.length = some (maxKey u + 1)) ∧
    maxKey [] + 1 = 1 :=
  surrogate_key_monotonicity testMasker
    [([goodRow], some "2025-01-01"), ([changeRow], some "2025-01-15")] [] histT rfl

/-- Witness for C9 at a concrete Changed transition. -/
theorem no_destructive_writes_witness :
    frameRel "2025-02-01" [curRow7] chT :=
  no_destructive_writes testMasker [changeRow] (some "2025-02-01") [curRow7] chT rfl

/-! ### C3 -/

lemma charListLe_refl : ∀ l : List Char, charListLe l l = true
  | [] => rfl
  | c :: cs => by
    unfold charListLe
    rw [if_neg (by omega), if_neg (by omega)]
    exact charListLe_refl cs

lemma charListLe_parts {l₁ l₂ : List Char} {c d : Char} {cs ds : List Char}
    (h₁ : l₁ = c :: cs) (h₂ : l₂ = d :: ds) (h : charListLe l₁ l₂ = true) :
    c.toNat < d.toNat ∨ (c.toNat = d.toNat ∧ charListLe cs ds = true) := by
  subst h₁; subst h₂
  unfold charListLe at h
  by_cases hcd : c.toNat < d.toNat
  · exact Or.inl hcd
  · rw [if_neg hcd] at h
    by_cases hdc : d.toNat < c.toNat
    · rw [if_pos hdc] at h; exact absurd h (by simp)
    · rw [if_neg hdc] at h; exact Or.inr ⟨by omega, h⟩

lemma charListLe_trans : ∀ l₁ l₂ l₃ : List Char,
    charListLe l₁ l₂ = true → charListLe l₂ l₃ = true → charListLe l₁ l₃ = true
  | [], _, _, _, _ => rfl
  | c :: cs, [], _, h₁, _ => absurd h₁ (by simp [charListLe])
  | c :: cs, d :: ds, [], _, h₂ => absurd h₂ (by simp [charListLe])
  | c :: cs, d :: ds, e :: es, h₁, h₂ => by
    rcases charListLe_parts rfl rfl h₁ with hcd | ⟨hcd, hr₁⟩ <;>
      rcases charListLe_parts rfl rfl h₂ with hde | ⟨hde, hr₂⟩ <;>
      unfold charListLe
    · rw [if_pos (by omega)]
    · rw [if_pos (by omega)]
    · rw [if_pos (by omega)]
    · rw [if_neg (by omega), if_neg (by omega)]
      exact charListLe_trans cs ds es hr₁ hr₂

lemma dateLe_refl (a : String) : dateLe a a = true := charListLe_refl a.data

lemma dateLe_trans {a b c : String} (h₁ : dateLe a b = true) (h₂ : dateLe b c = true) :
    dateLe a c = true := charListLe_trans a.data b.data c.data h₁ h₂

lemma chainOk_cons_cons {r r' : DimRow} {rs : List DimRow} :
    chainOk (r :: r' :: rs) = true ↔
      r.effective_to = some r'.effective_from ∧
      dateLe r.effective_from r'.effective_from = true ∧
      chainOk (r' :: rs) = true := by
  show (r.effective_to == some r'.effective_from &&
    dateLe r.effective_from r'.effective_from && chainOk (r' :: rs)) = true ↔ _
  simp [Bool.and_eq_true, and_assoc]

lemma chainOk_singleton {r : DimRow} : chainOk [r] = true ↔ r.effective_to = none := by
  show (r.effective_to == none) = true ↔ _
  simp

lemma chain_last_open : ∀ vs : List DimRow, chainOk vs = true → vs ≠ [] →
    ∃ r ∈ vs, r.effective_to = none
  | [], _, h => absurd rfl h
  | [r], hc, _ => ⟨r, List.mem_singleton.mpr rfl, chainOk_singleton.mp hc⟩
  | r :: r' :: rs, hc, _ => by
    obtain ⟨_, _, hc'⟩ := chainOk_cons_cons.mp hc
    obtain ⟨r₀, hr₀, he⟩ := chain_last_open (r' :: rs) hc' (by simp)
    exact ⟨r₀, List.mem_cons_of_mem _ hr₀, he⟩

lemma chain_count_current : ∀ vs : List DimRow, chainOk vs = true →
    (∀ r ∈ vs, r.is_current = true ↔ r.effective_to = none) →
    vs ≠ [] → (vs.filter (fun r => r.is_current)).length = 1
  | [], _, _, h => absurd rfl h
  | [r], hc, hflag, _ => by
    have hcur : r.is_current = true :=
      (hflag r (List.mem_singleton.mpr rfl)).mpr (chainOk_singleton.mp hc)
    simp [List.filter, hcur]
  | r :: r' :: rs, hc, hflag, _ => by
    obtain ⟨hto, _, hc'⟩ := chainOk_cons_cons.mp hc
    have hcur : r.is_current = false := by
      cases hx : r.is_current with
      | false => rfl
      | true =>
        have := (hflag r (List.mem_cons_self _ _)).mp hx
        rw [hto] at this
        exact absurd this (by simp)
    rw [List.filter_cons, if_neg (by simp [hcur])]
    exact chain_count_current (r' :: rs) hc'
      (fun x hx => hflag x (List.mem_cons_of_mem _ hx)) (by simp)

lemma dictLookup_mem_ne_none : ∀ {mm : List (Int × String)} {k : Int} {v : String},
    (k, v) ∈ mm → dictLookup mm k ≠ none
  | [], _, _, h => absurd h (List.not_mem_nil _)
  | p :: rest, k, v, h => by
    show (match dictLookup rest k with
      | some w => some w
      | none => if p.1 = k then some p.2 else none) ≠ none
    rcases List.mem_cons.mp h with heq | htl
    · cases hx : dictLookup rest k with
      | some w => simp
      | none => rw [← heq]; simp
    · cases hx : dictLookup rest k with
      | some w => simp
      | none => exact absurd hx (dictLookup_mem_ne_none htl)

lemma mem_versionsOf {table : List DimRow} {c : Int} {r : DimRow}
    (h : r ∈ versionsOf table c) : r ∈ table ∧ r.customer_id = c := by
  unfold versionsOf at h
  exact ⟨List.mem_of_mem_filter h, by simpa using List.of_mem_filter h⟩

lemma versions_empty_of_lookup_none {table : List DimRow} {c : Int}
    (hflag : currentFlagOk table)
    (hchain : ∀ c', chainOk (versionsOf table c') = true)
    (hlk : dictLookup (currentMap table) c = none) : versionsOf table c = [] := by
  by_contra hne
  obtain ⟨r, hr, he⟩ := chain_last_open _ (hchain c) hne
  obtain ⟨hmem, hcid⟩ := mem_versionsOf hr
  have hcur : r.is_current = true := (hflag r hmem).mpr he
  have hmm : (c, r.segment) ∈ currentMap table := by
    unfold currentMap
    exact List.mem_map.mpr ⟨r, List.mem_filter.mpr ⟨hmem, by simp [hcur]⟩, by rw [hcid]⟩
  exact dictLookup_mem_ne_none hmm hlk

lemma versionsOf_append (a b : List DimRow) (c : Int) :
    versionsOf (a ++ b) c = versionsOf a c ++ versionsOf b c := by
  simp [versionsOf]

lemma versionsOf_snapVersion (m : PIIMasker) (k cid : Int) (row : SnapshotRow)
    (dd : String) (c : Int) :
    versionsOf [snapVersion m k cid row dd] c =
      if cid = c then [snapVersion m k cid row dd] else [] := by
  unfold versionsOf
  rw [List.filter_cons]
  by_cases hc : cid = c
  · rw [if_pos (by simpa [snapVersion, mkVersion] using hc), if_pos hc]
    rfl
  · rw [if_neg (by simpa [snapVersion, mkVersion] using hc), if_neg hc]
    rfl

lemma filter_map_comm {f : DimRow → DimRow} {p : DimRow → Bool}
    (hf : ∀ r, p (f r) = p r) :
    ∀ l : List DimRow, (l.map f).filter p = (l.filter p).map f
  | [] => rfl
  | r :: rest => by
    rw [List.map_cons, List.filter_cons, List.filter_cons, hf r]
    by_cases hp : p r = true
    · rw [if_pos hp, if_pos hp, List.map_cons, filter_map_comm hf rest]
    · rw [if_neg hp, if_neg hp, filter_map_comm hf rest]

lemma versionsOf_expire (c₁ : Int) (dd : String) (tbl : List DimRow) (c : Int) :
    versionsOf (tbl.map (expireRow c₁ dd)) c = (versionsOf tbl c).map (expireRow c₁ dd) := by
  unfold versionsOf
  exact filter_map_comm (fun r => by rw [expireRow_customer_id]) tbl

lemma versionsOf_expire_ne {c₁ c : Int} (dd : String) (tbl : List DimRow)
    (h : c ≠ c₁) :
    versionsOf (tbl.map (expireRow c₁ dd)) c = versionsOf tbl c := by
  rw [versionsOf_expire]
  have hid : ∀ r ∈ versionsOf tbl c, expireRow c₁ dd r = r := by
    intro r hr
    exact expireRow_of_ne (by rw [(mem_versionsOf hr).2]; exact h)
  calc (versionsOf tbl c).map (expireRow c₁ dd)
      = (versionsOf tbl c).map id := List.map_congr_left hid
    _ = versionsOf tbl c := List.map_id _

/-- Expiry restricted to the version rows of the key being changed: only
the current row is modified. -/
def expireCur (dd : String) (r : DimRow) : DimRow :=
  if r.is_current = true then { r with effective_to := some dd, is_current := false }
  else r

lemma versionsOf_expire_self (c : Int) (dd : String) (tbl : List DimRow) :
    versionsOf (tbl.map (expireRow c dd)) c = (versionsOf tbl c).map (expireCur dd) := by
  rw [versionsOf_expire]
  refine List.map_congr_left (fun r hr => ?_)
  obtain ⟨_, hcid⟩ := mem_versionsOf hr
  unfold expireRow expireCur
  by_cases hcur : r.is_current = true
  · rw [if_pos ⟨hcid, hcur⟩, if_pos hcur]
  · rw [if_neg (fun hcc => hcur hcc.2), if_neg hcur]

lemma expireCur_from (dd : String) (r : DimRow) :
    (expireCur dd r).effective_from = r.effective_from := by
  unfold expireCur
  by_cases hcur : r.is_current = true
  · rw [if_pos hcur]
  · rw [if_neg hcur]

lemma chainOk_expireCur_append {dd : String} {v : DimRow}
    (hv : v.effective_to = none) (hf : v.effective_from = dd) :
    ∀ vs : List DimRow, chainOk vs = true →
      (∀ r ∈ vs, r.is_current = true ↔ r.effective_to = none) →
      (∀ r ∈ vs, dateLe r.effective_from dd = true) →
      chainOk (vs.map (expireCur dd) ++ [v]) = true
  | [], _, _, _ => by
    rw [List.map_nil, List.nil_append]
    exact chainOk_singleton.mpr hv
  | [r], hc, hflag, hb => by
    have hrto : r.effective_to = none := chainOk_singleton.mp hc
    have hrcur : r.is_current = true := (hflag r (List.mem_singleton.mpr rfl)).mpr hrto
    have he : expireCur dd r = { r with effective_to := some dd, is_current := false } := by
      unfold expireCur
      rw [if_pos hrcur]
    rw [List.map_cons, List.map_nil, he]
    refine chainOk_cons_cons.mpr ⟨by rw [hf], ?_, chainOk_singleton.mpr hv⟩
    show dateLe r.effective_from v.effective_from = true
    rw [hf]
    exact hb r (List.mem_singleton.mpr rfl)
  | r :: r' :: rs, hc, hflag, hb => by
    obtain ⟨hto, hdl, hc'⟩ := chainOk_cons_cons.mp hc
    have hrcur : r.is_current = false := by
      cases hx : r.is_current with
      | false => rfl
      | true =>
        have := (hflag r (List.mem_cons_self _ _)).mp hx
        rw [hto] at this
        exact absurd this (by simp)
    have he : expireCur dd r = r := by
      unfold expireCur
      rw [if_neg (by simp [hrcur])]
    have htail := chainOk_expireCur_append hv hf (r' :: rs) hc'
      (fun x hx => hflag x (List.mem_cons_of_mem _ hx))
      (fun x hx => hb x (List.mem_cons_of_mem _ hx))
    rw [List.map_cons, he, List.cons_append]
    rw [List.map_cons, List.cons_append] at htail ⊢
    exact chainOk_cons_cons.mpr ⟨by rw [expireCur_from, hto], by rw [expireCur_from]; exact hdl,
      htail⟩

lemma curOf_eq_filter : ∀ (table : List DimRow) (c : Int),
    curOf table c = (versionsOf table c).filter (fun r => r.is_current)
  | [], _ => rfl
  | r :: rest, c => by
    have ih := curOf_eq_filter rest c
    unfold curOf versionsOf at ih ⊢
    rw [List.filter_cons, List.filter_cons]
    by_cases hcid : r.customer_id = c
    · by_cases hcur : r.is_current = true
      · rw [if_pos (by simp [hcid, hcur]), if_pos (by simpa using hcid),
          List.filter_cons, if_pos (by simpa using hcur), ih]
      · rw [if_neg (by simp [hcid, hcur]), if_pos (by simpa using hcid),
          List.filter_cons, if_neg (by simpa using hcur), ih]
    · rw [if_neg (by simp [hcid]), if_neg (by simpa using hcid), ih]

lemma expireRow_from (cid : Int) (dd : String) (r : DimRow) :
    (expireRow cid dd r).effective_from = r.effective_from := by
  rcases expireRow_cases cid dd r with he | ⟨_, _, he⟩ <;> rw [he]

/-- The SCD2 state invariant at high-water date `D`: the `is_current` flag
agrees with `effective_to`, every key's version history is a closed chain
(contiguous, non-overlapping, single open interval), and every
`effective_from` is at most `D`. -/
def Inv (table : List DimRow) (D : String) : Prop :=
  currentFlagOk table ∧
  (∀ c, chainOk (versionsOf table c) = true) ∧
  ∀ r ∈ table, dateLe r.effective_from D = true

lemma inv_step_new {m : PIIMasker} {k c₀ : Int} {row : SnapshotRow} {dd : String}
    {tbl : List DimRow} (hInv : Inv tbl dd) (hempty : versionsOf tbl c₀ = []) :
    Inv (tbl ++ [snapVersion m k c₀ row dd]) dd := by
  obtain ⟨hflag, hchain, hb⟩ := hInv
  refine ⟨?_, ?_, ?_⟩
  · intro r hr
    rcases List.mem_append.mp hr with h | h
    · exact hflag r h
    · rw [List.mem_singleton.mp h]
      simp [snapVersion, mkVersion]
  · intro c
    rw [versionsOf_append, versionsOf_snapVersion]
    by_cases hc : c₀ = c
    · subst hc
      rw [hempty, if_pos rfl, List.nil_append]
      exact chainOk_singleton.mpr rfl
    · rw [if_neg hc, List.append_nil]
      exact hchain c
  · intro r hr
    rcases List.mem_append.mp hr with h | h
    · exact hb r h
    · rw [List.mem_singleton.mp h]
      exact dateLe_refl dd

lemma inv_step_changed {m : PIIMasker} {k c₀ : Int} {row : SnapshotRow} {dd : String}
    {tbl : List DimRow} (hInv : Inv tbl dd) :
    Inv (tbl.map (expireRow c₀ dd) ++ [snapVersion m k c₀ row dd]) dd := by
  obtain ⟨hflag, hchain, hb⟩ := hInv
  refine ⟨?_, ?_, ?_⟩
  · intro r hr
    rcases List.mem_append.mp hr with h | h
    · obtain ⟨r₂, hr₂, hmap⟩ := List.mem_map.mp h
      rcases expireRow_cases c₀ dd r₂ with he | ⟨_, _, he⟩
      · rw [← hmap, he]
        exact hflag r₂ hr₂
      · rw [← hmap, he]
        simp
    · rw [List.mem_singleton.mp h]
      simp [snapVersion, mkVersion]
  · intro c
    rw [versionsOf_append, versionsOf_snapVersion]
    by_cases hc : c₀ = c
    · subst hc
      rw [if_pos rfl, versionsOf_expire_self]
      exact @chainOk_expireCur_append dd (snapVersion m k c₀ row dd) rfl rfl
        (versionsOf tbl c₀) (hchain c₀)
        (fun r hr => hflag r (mem_versionsOf hr).1)
        (fun r hr => hb r (mem_versionsOf hr).1)
    · rw [if_neg hc, List.append_nil,
        versionsOf_expire_ne dd tbl (fun hcc => hc hcc.symm)]
      exact hchain c
  · intro r hr
    rcases List.mem_append.mp hr with h | h
    · obtain ⟨r₂, hr₂, hmap⟩ := List.mem_map.mp h
      rw [← hmap, expireRow_from]
      exact hb r₂ hr₂
    · rw [List.mem_singleton.mp h]
      exact dateLe_refl dd

lemma loadLoop_inv {m : PIIMasker} {cmap : List (Int × String)} {dd : String} :
    ∀ (rows : List SnapshotRow) (k : Int) (tbl : List DimRow) (k' : Int)
      (tbl' : List DimRow),
      loadLoop m cmap dd (k, tbl) rows = .ok (k', tbl') →
      (rows.map (fun r => r.customer_id)).Nodup →
      Inv tbl dd →
      (∀ r ∈ rows, ∀ c, r.customer_id = some c →
        dictLookup cmap c = none → versionsOf tbl c = []) →
      Inv tbl' dd
  | [], k, tbl, k', tbl', h, _, hInv, _ => by
    unfold loadLoop at h
    simp only [Except.ok.injEq, Prod.mk.injEq] at h
    rw [← h.2]
    exact hInv
  | row :: rest, k, tbl, k', tbl', h, hnd, hInv, hH => by
    unfold loadLoop at h
    cases hp : processRow m cmap dd (k, tbl) row with
    | error e => rw [hp] at h; exact absurd h (by simp)
    | ok st₁ =>
      rw [hp] at h
      obtain ⟨k₁, tbl₁⟩ := st₁
      obtain ⟨cid, hcid, hcases⟩ := processRow_ok hp
      have hhead : row.customer_id ∉ rest.map (fun r => r.customer_id) :=
        (List.nodup_cons.mp hnd).1
      have hne : ∀ r' ∈ rest, ∀ c', r'.customer_id = some c' → c' ≠ cid := by
        intro r' hr' c' hc' hcc
        apply hhead
        have : row.customer_id = r'.customer_id := by rw [hcid, hc', hcc]
        rw [this]
        exact List.mem_map.mpr ⟨r', hr', rfl⟩
      rcases hcases with ⟨hlk, _, hnew⟩ | ⟨seg, _, _, _, hch⟩ | ⟨_, _, heq⟩
      · -- New
        have hempty : versionsOf tbl cid = [] :=
          hH row (List.mem_cons_self _ _) cid hcid hlk
        have hInv₁ : Inv tbl₁ dd := by
          rw [hnew]
          exact inv_step_new hInv hempty
        refine loadLoop_inv rest k₁ tbl₁ k' tbl' h (List.nodup_cons.mp hnd).2 hInv₁ ?_
        intro r' hr' c' hc' hlk'
        have hcne := hne r' hr' c' hc'
        rw [hnew, versionsOf_append, versionsOf_snapVersion,
          if_neg (fun hcc => hcne hcc.symm), List.append_nil]
        exact hH r' (List.mem_cons_of_mem _ hr') c' hc' hlk'
      · -- Changed
        have hInv₁ : Inv tbl₁ dd := by
          rw [hch]
          exact inv_step_changed hInv
        refine loadLoop_inv rest k₁ tbl₁ k' tbl' h (List.nodup_cons.mp hnd).2 hInv₁ ?_
        intro r' hr' c' hc' hlk'
        have hcne := hne r' hr' c' hc'
        rw [hch, versionsOf_append, versionsOf_snapVersion,
          if_neg (fun hcc => hcne hcc.symm), List.append_nil,
          versionsOf_expire_ne dd tbl hcne]
        exact hH r' (List.mem_cons_of_mem _ hr') c' hc' hlk'
      · -- Unchanged
        rw [heq] at h
        refine loadLoop_inv rest k₁ tbl k' tbl' h (List.nodup_cons.mp hnd).2 hInv ?_
        exact fun r' hr' c' hc' hlk' => hH r' (List.mem_cons_of_mem _ hr') c' hc' hlk'

lemma load_inv {m : PIIMasker} {snap : List SnapshotRow} {d : Option String}
    {table t' : List DimRow} {D : String}
    (h : loadDimCustomer m snap d table = .ok t')
    (hnd : (snap.map (fun r => r.customer_id)).Nodup)
    (hInv : Inv table D) (hD : dateLe D (d.getD DEFAULT_DATE) = true) :
    Inv t' (d.getD DEFAULT_DATE) := by
  have hInv' : Inv table (d.getD DEFAULT_DATE) :=
    ⟨hInv.1, hInv.2.1, fun r hr => dateLe_trans (hInv.2.2 r hr) hD⟩
  rw [loadDimCustomer_ok_iff] at h
  obtain ⟨k', hk⟩ := h
  exact loadLoop_inv snap (maxKey table + 1) table k' t' hk hnd hInv'
    (fun r _ c _ hlk => versions_empty_of_lookup_none hInv'.1 hInv'.2.1 hlk)

lemma inv_nil (D : String) : Inv [] D :=
  ⟨fun r hr => absurd hr (List.not_mem_nil r), fun _ => rfl,
   fun r hr => absurd hr (List.not_mem_nil r)⟩

lemma loadSeq_inv {m : PIIMasker} :
    ∀ (batches : List (List SnapshotRow × Option String)) (table t' : List DimRow)
      (D : String),
      loadSeq m batches table = .ok t' →
      (∀ b ∈ batches, (b.1.map (fun r => r.customer_id)).Nodup) →
      List.Chain' (fun a b => dateLe a b = true)
        (D :: batches.map (fun b => b.2.getD DEFAULT_DATE)) →
      Inv table D →
      ∃ D', Inv t' D'
  | [], table, t', D, h, _, _, hInv => by
    unfold loadSeq at h
    simp only [Except.ok.injEq] at h
    exact ⟨D, h ▸ hInv⟩
  | b :: rest, table, t', D, h, hnd, hchain, hInv => by
    unfold loadSeq at h
    cases hb : loadDimCustomer m b.1 b.2 table with
    | error e => rw [hb] at h; exact absurd h (by simp)
    | ok t₁ =>
      rw [hb] at h
      rw [List.map_cons] at hchain
      have hDd : dateLe D (b.2.getD DEFAULT_DATE) = true :=
        (List.chain'_cons.mp hchain).1
      have hInv₁ := load_inv hb (hnd b (List.mem_cons_self _ _)) hInv hDd
      exact loadSeq_inv rest t₁ t' (b.2.getD DEFAULT_DATE) h
        (fun b' h' => hnd b' (List.mem_cons_of_mem _ h'))
        (List.chain'_cons.mp hchain).2 hInv₁

/-- C3 (amended): after any sequence of loads from an empty table with
chronologically non-decreasing `as_of_date`s, **in which each snapshot
mentions each natural key at most once**, the resulting table satisfies the
SCD2 invariants: `is_current = true` iff `effective_to` is null; each
natural key's version history (in insertion order) is a chain of
contiguous, non-overlapping `[effective_from, effective_to)` intervals with
non-decreasing starts and exactly one open interval; and every key that has
any rows has exactly one current row. -/
theorem scd2_history_invariant (m : PIIMasker)
    (batches : List (List SnapshotRow × Option String)) (t : List DimRow)
    (hnd : ∀ b ∈ batches, (b.1.map (fun r => r.customer_id)).Nodup)
    (hmono : List.Chain' (fun a b => dateLe a b = true)
      (batches.map (fun b => b.2.getD DEFAULT_DATE)))
    (h : loadSeq m batches [] = .ok t) :
    currentFlagOk t ∧
    (∀ c, chainOk (versionsOf t c) = true) ∧
    (∀ c, versionsOf t c ≠ [] → (curOf t c).length = 1) := by
  obtain ⟨D', hInv⟩ : ∃ D', Inv t D' := by
    cases batches with
    | nil =>
      unfold loadSeq at h
      simp only [Except.ok.injEq] at h
      exact ⟨DEFAULT_DATE, h ▸ inv_nil DEFAULT_DATE⟩
    | cons b rest =>
      refine loadSeq_inv (b :: rest) [] t (b.2.getD DEFAULT_DATE) h hnd ?_
        (inv_nil _)
      rw [List.map_cons] at hmono ⊢
      exact List.chain'_cons.mpr ⟨dateLe_refl _, hmono⟩
  obtain ⟨hflag, hchain, _⟩ := hInv
  refine ⟨hflag, hchain, fun c hne => ?_⟩
  rw [curOf_eq_filter]
  exact chain_count_current _ (hchain c)
    (fun r hr => hflag r (mem_versionsOf hr).1) hne

/-- C3 counterexample: a single load of a snapshot in which natural key 1
occurs twice (with the dates trivially non-decreasing) leaves **two**
current rows for key 1, violating the claimed one-current-row invariant. -/
theorem scd2_history_invariant_counterexample :
    loadSeq testMasker [([dupA, dupB], some "2025-01-01")] [] = .ok dupT1 ∧
    (curOf dupT1 1).length = 2 :=
  ⟨rfl, rfl⟩

/-- Witness for the amended C3 theorem at a concrete two-batch sequence. -/
theorem scd2_history_invariant_witness :
    currentFlagOk histT ∧
    (∀ c, chainOk (versionsOf histT c) = true) ∧
    (∀ c, versionsOf histT c ≠ [] → (curOf histT c).length = 1) :=
  scd2_history_invariant testMasker
    [([goodRow], some "2025-01-01"), ([changeRow], some "2025-01-15")] histT
    (by decide) (by simp [List.chain'_cons, List.chain'_singleton]; decide) rfl

/-! ### C7 -/

/-- C7 counterexample: a snapshot containing a malformed row (missing
natural key) does not have that row skipped with processing continuing;
the whole load aborts and no aggregate skip count is returned.  The same
well-formed remainder alone loads fine, showing the remainder was not
processed in the failing run. -/
theorem malformed_row_counterexample :
    (loadDimCustomerCount testMasker [badRow, goodRow] (some "2025-01-01") []).isOk
      = false ∧
    loadDimCustomer testMasker [goodRow] (some "2025-01-01") [] =
      .ok [mkVersion 1 7 "tok:good@example.com" "red:555-1111" "Good" "Row" "gold"
        "2025-01-01"] :=
  ⟨rfl, rfl⟩

/-- C7 (amended): `load_dim_customer` performs no malformed-row handling:
a snapshot containing any row with a missing natural key makes the whole
load fail (the database raises on the interpolated missing key); the
malformed row is not skipped, later rows are not processed, and no count of
skipped rows is surfaced. -/
theorem malformed_row_aborts_load (m : PIIMasker) (snap : List SnapshotRow)
    (d : Option String) (table : List DimRow) (r : SnapshotRow)
    (hr : r ∈ snap) (hid : r.customer_id = none) :
    (loadDimCustomer m snap d table).isOk = false := by
  unfold loadDimCustomer
  have := @loadLoop_error_of_missing m (currentMap table) (d.getD DEFAULT_DATE)
    r hid snap (maxKey table + 1, table) hr
  cases hl : loadLoop m (currentMap table) (d.getD DEFAULT_DATE)
      (maxKey table + 1, table) snap with
  | error e => rfl
  | ok st =>
    rw [hl] at this
    exact absurd this (by simp [Except.isOk, Except.toBool])

/-- Witness for the amended C7 theorem at a concrete malformed snapshot. -/
theorem malformed_row_aborts_load_witness :
    (loadDimCustomer testMasker [badRow, goodRow] (some "2025-01-01") []).isOk = false :=
  malformed_row_aborts_load testMasker [badRow, goodRow] (some "2025-01-01") []
    badRow (List.mem_cons_self badRow [goodRow]) rfl

/-! ### C10 -/

/-- C10: omitting `snapshot_date` does not stamp the current date: the call
is literally the call with the fixed constant date `2025-01-30`, and every
row the call adds to the table carries `effective_from = "2025-01-30"` and
`_loaded_at = "2025-01-30"` (rows not added are field-for-field copies of
rows already in the table, up to the expiry pair).  In particular two calls
with `snapshot_date` omitted stamp identical `effective_from` values
whatever the real day. -/
theorem default_snapshot_date_is_constant (m : PIIMasker) (snap : List SnapshotRow)
    (table t' : List DimRow)
    (h : loadDimCustomer m snap none table = .ok t') :
    loadDimCustomer m snap (some "2025-01-30") table = .ok t' ∧
    ∀ r ∈ t', (∃ r₀ ∈ table, sameCore r₀ r) ∨
      (r.effective_from = "2025-01-30" ∧ r.loaded_at = "2025-01-30") := by
  constructor
  · have : loadDimCustomer m snap (some "2025-01-30") table =
        loadDimCustomer m snap none table := by
      unfold loadDimCustomer DEFAULT_DATE
      rfl
    rw [this]
    exact h
  · rw [loadDimCustomer_ok_iff] at h
    obtain ⟨k', hk⟩ := h
    exact loadLoop_mem snap (maxKey table + 1) table k' t' hk

/-! ### Temporal Cost Attribution Engine (C6, C8)

The attribution DML (`sql/dml/load_fact_customer_cost.sql`, executed by
`load_fact_customer_cost`) is not part of the source tree; the engine below
is modelled from the spec (section 4.2 Temporal Cost Attribution Engine and
section 7 Error Handling Design). -/

/-- Modelled from the spec: a raw fact event — entity natural key,
reference (service) natural key, event date, and a possibly-null cost.
Costs are exact rationals, following the spec's full-precision summation
("summation happens in full precision, rounding is the last step"). -/
structure FactEvent where
  entity_natural_key : Int
  reference_natural_key : String
  event_date : String
  cost : Option ℚ
deriving DecidableEq

/-- Modelled from the spec: the interval containment test
`effective_from <= event_date < effective_to OR (effective_to IS NULL AND
effective_from <= event_date)`. -/
def validOn (r : DimRow) (d : String) : Bool :=
  dateLe r.effective_from d &&
    (match r.effective_to with
     | none => true
     | some t => !(dateLe t d))

/-- Modelled from the spec: the distinct entity natural keys whose version
row is valid on date `d`. -/
def activeCustomerIds (dim : List DimRow) (d : String) : List Int :=
  ((dim.filter (fun r => validOn r d)).map (fun r => r.customer_id)).dedup

/-- Modelled from the spec: null costs are coalesced to 0.00 before
summing. -/
def coalesceCost (c : Option ℚ) : ℚ := c.getD 0

/-- Rounding to 2 decimal places (monetary precision), applied at the point
of emission. -/
def round2 (q : ℚ) : ℚ := (round (100 * q) : ℤ) / 100

/-- Modelled from the spec: the total raw cost of a (date, reference key)
pair, nulls coalesced to zero, summed in full precision. -/
def totalCostFor (facts : List FactEvent) (d svc : String) : ℚ :=
  ((facts.filter (fun e => e.event_date == d && e.reference_natural_key == svc)).map
    (fun e => coalesceCost e.cost)).sum

/-- Modelled from the spec: each reference entity's total cost for a date
is divided equally among every distinct entity natural key active on that
date, rounded to 2 decimals at emission. -/
def allocatedCostFor (dim : List DimRow) (facts : List FactEvent) (d svc : String) : ℚ :=
  round2 (totalCostFor facts d svc / ((activeCustomerIds dim d).length : ℚ))

/-- Modelled from the spec: the output allocation rows of one
(date, reference key) grain — one row per distinct active entity. -/
def allocationRows (dim : List DimRow) (facts : List FactEvent) (d svc : String) :
    List (Int × ℚ) :=
  (activeCustomerIds dim d).map (fun c => (c, allocatedCostFor dim facts d svc))

lemma round2_err (q : ℚ) : |round2 q - q| ≤ 1 / 100 := by
  have h := abs_sub_round (100 * q)
  rw [abs_sub_comm] at h
  have h2 : |round2 q - q| = |(round (100 * q) : ℚ) - 100 * q| / 100 := by
    unfold round2
    rw [show (round (100 * q) : ℚ) / 100 - q =
      ((round (100 * q) : ℚ) - 100 * q) / 100 by ring, abs_div]
    norm_num
  rw [h2]
  calc |(round (100 * q) : ℚ) - 100 * q| / 100 ≤ (1 / 2) / 100 := by gcongr
    _ ≤ 1 / 100 := by norm_num

/-- C6 (attribution conservation, modelled from the spec): for a (date,
reference key) grain with at least one active entity, the sum of the
emitted `allocated_cost` values over all active entities differs from the
total raw cost (nulls coalesced to 0) by at most `0.01 · N`, where `N` is
the number of active entities — the rounding tolerance of at most 0.01 per
grain aggregated over the active entities. -/
theorem attribution_conservation (dim : List DimRow) (facts : List FactEvent)
    (d svc : String) (hN : 0 < (activeCustomerIds dim d).length) :
    |((allocationRows dim facts d svc).map (fun p => p.2)).sum -
        totalCostFor facts d svc| ≤
      ((activeCustomerIds dim d).length : ℚ) * (1 / 100) := by
  have hNne : ((activeCustomerIds dim d).length : ℚ) ≠ 0 := by
    exact_mod_cast Nat.pos_iff_ne_zero.mp hN
  have hsum : ((allocationRows dim facts d svc).map (fun p => p.2)).sum =
      ((activeCustomerIds dim d).length : ℚ) * allocatedCostFor dim facts d svc := by
    unfold allocationRows
    rw [List.map_map]
    rw [show ((fun p : Int × ℚ => p.2) ∘
      (fun c : Int => (c, allocatedCostFor dim facts d svc))) =
      (fun _ : Int => allocatedCostFor dim facts d svc) from rfl]
    rw [List.map_const', List.sum_replicate, nsmul_eq_mul]
  rw [hsum]
  have hT : ((activeCustomerIds dim d).length : ℚ) *
      (totalCostFor facts d svc / ((activeCustomerIds dim d).length : ℚ)) =
      totalCostFor facts d svc := by
    field_simp
  calc |((activeCustomerIds dim d).length : ℚ) * allocatedCostFor dim facts d svc -
        totalCostFor facts d svc|
      = |((activeCustomerIds dim d).length : ℚ) * allocatedCostFor dim facts d svc -
          ((activeCustomerIds dim d).length : ℚ) *
            (totalCostFor facts d svc / ((activeCustomerIds dim d).length : ℚ))| := by
        rw [hT]
    _ = ((activeCustomerIds dim d).length : ℚ) *
          |allocatedCostFor dim facts d svc -
            totalCostFor facts d svc / ((activeCustomerIds dim d).length : ℚ)| := by
        rw [← mul_sub, abs_mul, abs_of_nonneg (by positivity)]
    _ ≤ ((activeCustomerIds dim d).length : ℚ) * (1 / 100) := by
        apply mul_le_mul_of_nonneg_left _ (by positivity)
        exact round2_err _

/-- Modelled from the spec: an entity is "ingested" when it has any
dimension row at all. -/
def ingested (dim : List DimRow) (c : Int) : Bool :=
  dim.any (fun r => r.customer_id == c)

/-- Modelled from the spec: reference surrogate key resolution by exact
natural-key match in the non-versioned reference dimension. -/
def refResolve (refDim : List (String × Int)) (s : String) : Option Int :=
  (refDim.find? (fun p => p.1 == s)).map (fun p => p.2)

/-- Modelled from the spec: the version rows of entity `c` valid on date
`d` (the interval resolution that must yield exactly one row). -/
def resolveVersions (dim : List DimRow) (c : Int) (d : String) : List DimRow :=
  dim.filter (fun r => r.customer_id == c && validOn r d)

/-- An emitted attributed fact row: surrogate keys only. -/
structure FactRow where
  usage_date : String
  customer_key : Int
  service_key : Int
  allocated_cost : ℚ
deriving DecidableEq

/-- The diagnostic of a fatal consistency fault: the offending entity key
and date. -/
structure ConsistencyFault where
  entity_key : Int
  event_date : String
deriving DecidableEq

/-- Modelled from the spec: an orphan event — its reference natural key or
its entity natural key was never ingested. -/
def isOrphan (dim : List DimRow) (refDim : List (String × Int)) (e : FactEvent) : Bool :=
  refResolve refDim e.reference_natural_key == none ||
    !(ingested dim e.entity_natural_key)

/-- Modelled from the spec: the attribution engine.  For each fact event,
resolve the reference surrogate key, then resolve the entity version by
interval containment; an orphan is excluded and counted, a resolution to
zero or more than one active version aborts the run with a diagnostic. -/
def attributeCosts (dim : List DimRow) (refDim : List (String × Int)) :
    List FactEvent → Except ConsistencyFault (List FactRow × Nat)
  | [] => .ok ([], 0)
  | e :: rest =>
    match refResolve refDim e.reference_natural_key with
    | none => (attributeCosts dim refDim rest).map (fun p => (p.1, p.2 + 1))
    | some svcKey =>
      if ingested dim e.entity_natural_key = true then
        match resolveVersions dim e.entity_natural_key e.event_date with
        | [v] => (attributeCosts dim refDim rest).map
            (fun p => (⟨e.event_date, v.customer_key, svcKey, coalesceCost e.cost⟩ :: p.1,
              p.2))
        | _ => .error ⟨e.entity_natural_key, e.event_date⟩
      else (attributeCosts dim refDim rest).map (fun p => (p.1, p.2 + 1))

/-- C8 (modelled from the spec): interval resolution during attribution
must yield exactly one version row per ingested entity per event date.  A
run that aborts does so with a diagnostic naming the entity key and event
date of a non-orphan event whose resolution had zero or several rows; a
run that completes resolved every non-orphan event to exactly one version,
counted exactly the orphan events (entity or reference natural key never
ingested) in the returned summary count, and emitted rows only for the
non-orphan events. -/
theorem attribution_fault_handling (dim : List DimRow) (refDim : List (String × Int)) :
    ∀ facts : List FactEvent,
      (∀ flt, attributeCosts dim refDim facts = .error flt →
        ∃ e ∈ facts, e.entity_natural_key = flt.entity_key ∧
          e.event_date = flt.event_date ∧ isOrphan dim refDim e = false ∧
          (resolveVersions dim flt.entity_key flt.event_date).length ≠ 1) ∧
      (∀ rows n, attributeCosts dim refDim facts = .ok (rows, n) →
        n = (facts.filter (fun e => isOrphan dim refDim e)).length ∧
        rows.length = (facts.filter (fun e => !(isOrphan dim refDim e))).length ∧
        ∀ e ∈ facts, isOrphan dim refDim e = false →
          (resolveVersions dim e.entity_natural_key e.event_date).length = 1)
  | [] => by
    constructor
    · intro flt h
      exact absurd h (by simp [attributeCosts])
    · intro rows n h
      simp only [attributeCosts, Except.ok.injEq, Prod.mk.injEq] at h
      refine ⟨by rw [← h.2]; rfl, by rw [← h.1]; rfl, ?_⟩
      intro e he
      exact absurd he (List.not_mem_nil e)
  | e :: rest => by
    obtain ⟨IHerr, IHok⟩ := attribution_fault_handling dim refDim rest
    constructor
    · -- a fatal consistency fault names a non-orphan event with bad resolution
      intro flt h
      unfold attributeCosts at h
      cases href : refResolve refDim e.reference_natural_key with
      | none =>
        rw [href] at h
        cases hrec : attributeCosts dim refDim rest with
        | error flt' =>
          rw [hrec] at h
          simp only [Except.map, Except.error.injEq] at h
          obtain ⟨e', he', hprop⟩ := IHerr flt (by rw [hrec, h])
          exact ⟨e', List.mem_cons_of_mem _ he', hprop⟩
        | ok p =>
          rw [hrec] at h
          exact absurd h (by simp [Except.map])
      | some svcKey =>
        rw [href] at h
        dsimp only at h
        by_cases hing : ingested dim e.entity_natural_key = true
        · rw [if_pos hing] at h
          cases hrv : resolveVersions dim e.entity_natural_key e.event_date with
          | nil =>
            rw [hrv] at h
            simp only [Except.error.injEq] at h
            refine ⟨e, List.mem_cons_self _ _, ?_⟩
            rw [← h]
            exact ⟨rfl, rfl, by simp [isOrphan, href, hing], by rw [hrv]; simp⟩
          | cons v vs =>
            cases vs with
            | nil =>
              rw [hrv] at h
              cases hrec : attributeCosts dim refDim rest with
              | error flt' =>
                rw [hrec] at h
                simp only [Except.map, Except.error.injEq] at h
                obtain ⟨e', he', hprop⟩ := IHerr flt (by rw [hrec, h])
                exact ⟨e', List.mem_cons_of_mem _ he', hprop⟩
              | ok p =>
                rw [hrec] at h
                exact absurd h (by simp [Except.map])
            | cons v' vs' =>
              rw [hrv] at h
              simp only [Except.error.injEq] at h
              refine ⟨e, List.mem_cons_self _ _, ?_⟩
              rw [← h]
              exact ⟨rfl, rfl, by simp [isOrphan, href, hing], by rw [hrv]; simp⟩
        · rw [if_neg hing] at h
          cases hrec : attributeCosts dim refDim rest with
          | error flt' =>
            rw [hrec] at h
            simp only [Except.map, Except.error.injEq] at h
            obtain ⟨e', he', hprop⟩ := IHerr flt (by rw [hrec, h])
            exact ⟨e', List.mem_cons_of_mem _ he', hprop⟩
          | ok p =>
            rw [hrec] at h
            exact absurd h (by simp [Except.map])
    · -- a completed run counts orphans and resolved everything else uniquely
      intro rows n h
      unfold attributeCosts at h
      cases href : refResolve refDim e.reference_natural_key with
      | none =>
        have horph : isOrphan dim refDim e = true := by simp [isOrphan, href]
        rw [href] at h
        cases hrec : attributeCosts dim refDim rest with
        | error flt' =>
          rw [hrec] at h
          exact absurd h (by simp [Except.map])
        | ok p =>
          rw [hrec] at h
          obtain ⟨rows₀, n₀⟩ := p
          simp only [Except.map, Except.ok.injEq, Prod.mk.injEq] at h
          obtain ⟨IH1, IH2, IH3⟩ := IHok rows₀ n₀ hrec
          refine ⟨?_, ?_, ?_⟩
          · rw [← h.2, List.filter_cons, if_pos (by simp [horph]), IH1]
            rfl
          · rw [← h.1, List.filter_cons, if_neg (by simp [horph])]
            exact IH2
          · intro e' he' ho
            rcases List.mem_cons.mp he' with rfl | hrt
            · rw [horph] at ho
              exact absurd ho (by simp)
            · exact IH3 e' hrt ho
      | some svcKey =>
        rw [href] at h
        dsimp only at h
        by_cases hing : ingested dim e.entity_natural_key = true
        · have horph : isOrphan dim refDim e = false := by simp [isOrphan, href, hing]
          rw [if_pos hing] at h
          cases hrv : resolveVersions dim e.entity_natural_key e.event_date with
          | nil =>
            rw [hrv] at h
            exact absurd h (by simp)
          | cons v vs =>
            cases vs with
            | nil =>
              rw [hrv] at h
              cases hrec : attributeCosts dim refDim rest with
              | error flt' =>
                rw [hrec] at h
                exact absurd h (by simp [Except.map])
              | ok p =>
                rw [hrec] at h
                obtain ⟨rows₀, n₀⟩ := p
                simp only [Except.map, Except.ok.injEq, Prod.mk.injEq] at h
                obtain ⟨IH1, IH2, IH3⟩ := IHok rows₀ n₀ hrec
                refine ⟨?_, ?_, ?_⟩
                · rw [← h.2, List.filter_cons, if_neg (by simp [horph])]
                  exact IH1
                · rw [← h.1, List.filter_cons, if_pos (by simp [horph]),
                    List.length_cons, List.length_cons, IH2]
                · intro e' he' ho
                  rcases List.mem_cons.mp he' with rfl | hrt
                  · rw [hrv]
                    rfl
                  · exact IH3 e' hrt ho
            | cons v' vs' =>
              rw [hrv] at h
              exact absurd h (by simp)
        · have hingf : ingested dim e.entity_natural_key = false := by simpa using hing
          have horph : isOrphan dim refDim e = true := by
            simp [isOrphan, href, hingf]
          rw [if_neg hing] at h
          cases hrec : attributeCosts dim refDim rest with
          | error flt' =>
            rw [hrec] at h
            exact absurd h (by simp [Except.map])
          | ok p =>
            rw [hrec] at h
            obtain ⟨rows₀, n₀⟩ := p
            simp only [Except.map, Except.ok.injEq, Prod.mk.injEq] at h
            obtain ⟨IH1, IH2, IH3⟩ := IHok rows₀ n₀ hrec
            refine ⟨?_, ?_, ?_⟩
            · rw [← h.2, List.filter_cons, if_pos (by simp [horph]), IH1]
              rfl
            · rw [← h.1, List.filter_cons, if_neg (by simp [horph])]
              exact IH2
            · intro e' he' ho
              rcases List.mem_cons.mp he' with rfl | hrt
              · rw [horph] at ho
                exact absurd ho (by simp)
              · exact IH3 e' hrt ho

/-- A concrete fact event: entity 7, service `svcA`, cost 10. -/
def factW : FactEvent := ⟨7, "svcA", "2025-01-05", some 10⟩

/-- A fact event whose entity natural key (8) was never ingested. -/
def orphEntW : FactEvent := ⟨8, "svcA", "2025-01-06", some 5⟩

/-- A fact event whose reference natural key (`svcB`) is unknown. -/
def orphRefW : FactEvent := ⟨7, "svcB", "2025-01-07", none⟩

/-- A concrete reference dimension: `svcA` has surrogate key 11. -/
def refW : List (String × Int) := [("svcA", 11)]

/-- A corrupted dimension: two overlapping current rows for natural key 7. -/
def dimBadW : List DimRow :=
  [curRow7, mkVersion 5 7 "tok:x" "red:y" "Old2" "Name2" "silver" "2025-01-02"]

/-- Witness for C6 at a concrete grain: one active entity, one fact. -/
theorem attribution_conservation_witness :
    |((allocationRows [curRow7] [factW] "2025-01-05" "svcA").map (fun p => p.2)).sum -
        totalCostFor [factW] "2025-01-05" "svcA"| ≤
      ((activeCustomerIds [curRow7] "2025-01-05").length : ℚ) * (1 / 100) :=
  attribution_conservation [curRow7] [factW] "2025-01-05" "svcA" (by decide)

/-- Witness for C8: a fatal two-version resolution yields the diagnostic
naming entity 7 and its event date, and a clean run over one attributable
event and two orphans returns one row and an orphan count of 2. -/
theorem attribution_fault_handling_witness :
    (∃ e ∈ [factW], e.entity_natural_key = (7 : Int) ∧
      e.event_date = "2025-01-05" ∧ isOrphan dimBadW refW e = false ∧
      (resolveVersions dimBadW 7 "2025-01-05").length ≠ 1) ∧
    ((2 : Nat) =
        (([factW, orphEntW, orphRefW]).filter (fun e => isOrphan [curRow7] refW e)).length ∧
      ([(⟨"2025-01-05", 3, 11, (10 : ℚ)⟩ : FactRow)]).length =
        (([factW, orphEntW, orphRefW]).filter
          (fun e => !(isOrphan [curRow7] refW e))).length ∧
      ∀ e ∈ [factW, orphEntW, orphRefW], isOrphan [curRow7] refW e = false →
        (resolveVersions [curRow7] e.entity_natural_key e.event_date).length = 1) :=
  ⟨(attribution_fault_handling dimBadW refW [factW]).1 ⟨7, "2025-01-05"⟩ rfl,
   (attribution_fault_handling [curRow7] refW [factW, orphEntW, orphRefW]).2
     [⟨"2025-01-05", 3, 11, 10⟩] 2 rfl⟩

/-- Witness for C10 at a concrete snapshot. -/
theorem default_snapshot_date_is_constant_witness :
    loadDimCustomer testMasker [goodRow] (some "2025-01-30") [] =
      .ok [mkVersion 1 7 "tok:good@example.com" "red:555-1111" "Good" "Row" "gold"
        "2025-01-30"] ∧
    ∀ r ∈ [mkVersion 1 7 "tok:good@example.com" "red:555-1111" "Good" "Row" "gold"
        "2025-01-30"], (∃ r₀ ∈ ([] : List DimRow), sameCore r₀ r) ∨
      (r.effective_from = "2025-01-30" ∧ r.loaded_at = "2025-01-30") :=
  default_snapshot_date_is_constant testMasker [goodRow] []
    [mkVersion 1 7 "tok:good@example.com" "red:555-1111" "Good" "Row" "gold"
      "2025-01-30"] rfl

end Asom
